import Mathlib

/-!
Verification of the memory search engine in skills/memory-manager/scripts/memory.py.

Strings are modelled as lists of characters (ASCII fragment of Python str);
the compiled regex object of the regex search mode is abstracted by the list
of (start, end) spans its finditer produces, and re.compile by a function that
returns none exactly when compilation raises re.error.

Scores are represented in quarter points as integers: the float 1.0 of the
program is 4 here, 2.0 is 8, 3.0 is 12, 1.5 is 6.  Every score the program
computes is a multiple of 0.25 and float arithmetic is exact on such values,
so this representation is a strictly monotone exact image of the program's
scores: comparisons, sort order and zero tests are preserved.  Times are
represented in integer microseconds, which is exactly the resolution of
datetime and timedelta.  Fallible code paths (an uncaught exception escaping
search_memory_files) are modelled with Option.
-/

namespace MemorySearch

/-- Python strings, restricted to their code points. -/
abbrev Str := List Char

/-- Python str.lower, ASCII fragment. -/
def lowerStr (s : Str) : Str := s.map Char.toLower

/-- Python regex class \s and str whitespace, ASCII fragment: space, tab, newline, CR, VT, FF. -/
def isPySpace (c : Char) : Bool :=
  c = ' ' || c = '\t' || c = '\n' || c = '\r' || c = '\x0b' || c = '\x0c'

/-- Python substring test (needle in hay). -/
def pyIn (n : Str) : Str → Bool
  | [] => n.isPrefixOf []
  | c :: t => n.isPrefixOf (c :: t) || pyIn n t

/-- Auxiliary for pyCount: non-overlapping occurrences scanning left to
right; after a hit the next length-minus-one characters are skipped, so the
scan resumes right after the occurrence. -/
def pyCountAux (n : Str) (skip : Nat) : Str → Nat
  | [] => 0
  | c :: t =>
    match skip with
    | Nat.succ k => pyCountAux n k t
    | 0 => if n.isPrefixOf (c :: t) then 1 + pyCountAux n (n.length - 1) t
           else pyCountAux n 0 t

/-- Python str.count (memory.py line 49): non-overlapping occurrence count; counting the empty string yields length + 1. -/
def pyCount (n hay : Str) : Nat :=
  if n.isEmpty then hay.length + 1 else pyCountAux n 0 hay

/-- The portion of s before the next newline (regex . never crosses a newline). -/
def lineSeg (s : Str) : Str := s.takeWhile (fun c => c ≠ '\n')

/-- Python s.split(sep) for a one-character separator: always returns at least one piece. -/
def splitCh (sep : Char) : Str → List Str
  | [] => [[]]
  | c :: r =>
    if c = sep then [] :: splitCh sep r
    else
      match splitCh sep r with
      | h :: t => (c :: h) :: t
      | [] => [[c]]

/-- content.split(chr 10). -/
def splitNl : Str → List Str := splitCh '\n'

/-- chr(10).join(lines). -/
def joinNl (ls : List Str) : Str := List.intercalate ['\n'] ls

/-- The stop-word list of extract_keywords (memory.py lines 24-35). -/
def stopWords : List Str := [
  "the".data, "a".data, "an".data, "is".data, "are".data, "was".data, "were".data,
  "be".data, "been".data, "being".data, "have".data, "has".data, "had".data,
  "do".data, "does".data, "did".data, "will".data, "would".data, "could".data,
  "should".data, "may".data, "might".data, "must".data, "shall".data, "can".data,
  "need".data, "dare".data, "ought".data, "used".data, "to".data, "of".data,
  "in".data, "for".data, "on".data, "with".data, "at".data, "by".data,
  "from".data, "as".data, "into".data, "through".data, "during".data,
  "before".data, "after".data, "above".data, "below".data, "between".data,
  "under".data, "and".data, "but".data, "or".data, "yet".data, "so".data,
  "if".data, "because".data, "although".data, "though".data, "while".data,
  "where".data, "when".data, "that".data, "which".data, "who".data, "whom".data,
  "whose".data, "what".data, "this".data, "these".data, "those".data, "i".data,
  "you".data, "he".data, "she".data, "it".data, "we".data, "they".data, "me".data,
  "him".data, "her".data, "us".data, "them".data, "my".data, "your".data,
  "his".data, "its".data, "our".data, "their".data, "mine".data, "yours".data,
  "hers".data, "ours".data, "theirs".data]

/-- Python regex class \w, ASCII fragment. -/
def isWordCh (c : Char) : Bool := c.isAlpha || c.isDigit || c = '_'

/-- Maximal runs of word characters; acc holds the current run reversed. -/
def wordRunsAcc (acc : Str) : Str → List Str
  | [] => if acc.isEmpty then [] else [acc.reverse]
  | c :: r =>
    if isWordCh c then wordRunsAcc (c :: acc) r
    else if acc.isEmpty then wordRunsAcc [] r
    else acc.reverse :: wordRunsAcc [] r

def wordRuns (s : Str) : List Str := wordRunsAcc [] s

/-- extract_keywords (memory.py lines 21-38).  The pattern (word boundary,
letters, word boundary) applied to the lowercased query matches exactly the
maximal word-character runs that consist solely of letters; a run containing a
digit or underscore yields no token at all.  Tokens are kept when they are not
stop words and are longer than 2 characters.  Duplicates are preserved in
order of occurrence. -/
def extract_keywords (q : Str) : List Str :=
  ((wordRuns (lowerStr q)).filter (fun w => w.all Char.isAlpha)).filter
    (fun w => !(stopWords.contains w) && decide (2 < w.length))

/-- A keyword interpolates into the heading/bullet patterns as a literal when
it consists of letters, digits and spaces; every token extract_keywords
produces is of this form.  For other keywords the interpolated pattern can
change meaning or fail to compile. -/
def isLitKw (k : Str) : Bool := k.all (fun c => c.isAlpha || c.isDigit || c = ' ')

/-- Tail of the heading pattern after its first hash: the remaining hashes,
then one whitespace character (which regex \s allows to be the newline that
ends an all-hash line), then the keyword somewhere before the next newline,
case-insensitively. -/
def afterHashes (k : Str) : Str → Bool
  | [] => false
  | c :: r =>
    if c = '#' then afterHashes k r
    else isPySpace c && pyIn (lowerStr k) (lowerStr (lineSeg r))

/-- Heading test of score_content at one line start (memory.py line 51):
the pattern is caret, one or more hashes, one whitespace, dot-star, keyword,
with MULTILINE and IGNORECASE. -/
def headingAt (k : Str) : Str → Bool
  | '#' :: r => afterHashes k r
  | _ => false

/-- Bullet test of score_content at one line start (memory.py line 54):
caret, whitespace-star, dash or star, one whitespace, dot-star, keyword. -/
def bulletAt (k : Str) : Str → Bool
  | [] => false
  | c :: r =>
    if c = '-' || c = '*' then
      match r with
      | [] => false
      | c2 :: r2 => isPySpace c2 && pyIn (lowerStr k) (lowerStr (lineSeg r2))
    else isPySpace c && bulletAt k r

/-- MULTILINE search: the line-start predicate is tried at position 0 and
after every newline. -/
def mlAux (p : Str → Bool) : Str → Bool
  | [] => false
  | c :: r => (c = '\n' && p r) || mlAux p r

def mlSearch (p : Str → Bool) (s : Str) : Bool := p s || mlAux p s

/-- The weight score_content gives one keyword (memory.py lines 51-57):
3.0 (here 12) when the heading test succeeds, else 2.0 (here 8) when the
bullet test succeeds, else 1.0 (here 4). -/
def kwWeight (content : Str) (k : Str) : ℤ :=
  if mlSearch (headingAt k) content then 12
  else if mlSearch (bulletAt k) content then 8
  else 4

/-- One iteration of the keyword loop of score_content (memory.py lines 46-57).
The keyword is interpolated unescaped into the heading/bullet patterns, which
are only compiled when the keyword occurs in the lowercased content; for a
keyword that is not regex-literal the compilation can raise re.error (for
example a lone opening parenthesis does), modelled as none. -/
def scoreKeyword (content cl : Str) (k : Str) : Option ℤ :=
  if pyIn k cl then
    if isLitKw k then some ((pyCount k cl : ℤ) * kwWeight content k)
    else none
  else some 0

def scoreContentAux (content cl : Str) (acc : ℤ) : List Str → Option ℤ
  | [] => some acc
  | k :: ks =>
    match scoreKeyword content cl k with
    | none => none
    | some s => scoreContentAux content cl (acc + s) ks

/-- score_content (memory.py lines 41-59). -/
def score_content (content : Str) (ks : List Str) : Option ℤ :=
  scoreContentAux content (lowerStr content) 0 ks

/-- Start index of the line containing position p:
content.rfind(newline, 0, p) + 1 (memory.py line 198). -/
def lineStartAux : Str → Nat → Nat → Nat
  | [], _, res => res
  | c :: r, i, res => lineStartAux r (i + 1) (if c = '\n' then i + 1 else res)

def lineStartIdx (content : Str) (p : Nat) : Nat := lineStartAux (content.take p) 0 0

/-- Python str.strip(), ASCII whitespace fragment. -/
def stripBoth (l : Str) : Str := ((l.dropWhile isPySpace).reverse.dropWhile isPySpace).reverse

/-- startswith for the three two-character prefixes dash-space, star-space, plus-space. -/
def markerSpace : Str → Bool
  | a :: b :: _ => (a = '-' || a = '*' || a = '+') && b = ' '
  | _ => false

/-- Per-match bonus of score_content_regex (memory.py lines 197-204): the
inspected slice runs from the start of the line containing match.start() up to
match.end(); 3.0 (here 12) when it begins with a hash, else 1.5 (here 6)
when, stripped, it begins with a marker followed by a space. -/
def regexBonus (content : Str) (m : Nat × Nat) : ℤ :=
  let line := (content.take m.2).drop (lineStartIdx content m.1)
  if line.head? = some '#' then 12
  else if markerSpace (stripBoth line) then 6
  else 0

/-- score_content_regex (memory.py lines 188-205), the compiled pattern
abstracted by its list of (start, end) match spans. -/
def score_content_regex (content : Str) (ms : List (Nat × Nat)) : ℤ :=
  if ms.isEmpty then 0
  else ms.foldl (fun acc m => acc + regexBonus content m) (8 * ms.length)

/-- lines[max(0, i-2) : min(len(lines), i+3)] joined with newlines
(memory.py lines 244-246); truncated Nat subtraction realises the max. -/
def snippetWindow (lines : List Str) (i : Nat) : Str :=
  joinNl ((lines.drop (i - 2)).take (min lines.length (i + 3) - (i - 2)))

/-- The line loop of extract_snippets (memory.py lines 239-248): the inner
keyword loop with break appends exactly one snippet when any keyword occurs in
the lowercased line. -/
def collectSnipsAux (lines : List Str) (kws : List Str) (i : Nat) : List Str → List Str
  | [] => []
  | l :: rest =>
    if kws.any (fun k => pyIn k (lowerStr l)) then
      snippetWindow lines i :: collectSnipsAux lines kws (i + 1) rest
    else collectSnipsAux lines kws (i + 1) rest

/-- Order-preserving duplicate removal with a seen set (memory.py lines 251-256). -/
def dedupAux (seen : List Str) : List Str → List Str
  | [] => []
  | s :: r => if seen.contains s then dedupAux seen r else s :: dedupAux (s :: seen) r

/-- extract_snippets (memory.py lines 234-258). -/
def extract_snippets (content : Str) (kws : List Str) : List Str :=
  dedupAux [] (collectSnipsAux (splitNl content) kws 0 (splitNl content))

/-- extract_snippets_regex (memory.py lines 208-231): the match line index is
the number of newlines before match.start(). -/
def extract_snippets_regex (content : Str) (ms : List (Nat × Nat)) : List Str :=
  dedupAux [] (ms.map (fun m => snippetWindow (splitNl content) ((content.take m.1).count '\n')))

/-- Tail of the colon tag pattern: whitespace-star then a colon (memory.py line 182). -/
def wsThenColon : Str → Bool
  | [] => false
  | c :: r => c = ':' || (isPySpace c && wsThenColon r)

/-- Colon tag pattern at one line start: whitespace-star, the escaped tag,
whitespace-star, colon.  The whitespace may include newlines. -/
def tagColonTry (tl : Str) : Str → Bool
  | [] => false
  | c :: r =>
    (tl.isPrefixOf (c :: r) && wsThenColon ((c :: r).drop tl.length)) ||
    (isPySpace c && tagColonTry tl r)

/-- has_tags (memory.py lines 162-185). -/
def has_tags (content : Str) (tags : List Str) : Bool :=
  let cl := lowerStr content
  tags.any (fun tag =>
    let tl := lowerStr tag
    pyIn ('#' :: tl) cl ||
    pyIn ('[' :: (tl ++ [']'])) cl ||
    pyIn ('[' :: '[' :: (tl ++ [']', ']'])) cl ||
    mlSearch (tagColonTry tl) cl)

/-- Gregorian leap year. -/
def isLeap (y : Nat) : Bool := y % 4 = 0 && (y % 100 ≠ 0 || y % 400 = 0)

def monthLen (y m : Nat) : Nat :=
  if m = 2 then (if isLeap y then 29 else 28)
  else if m = 4 || m = 6 || m = 9 || m = 11 then 30
  else 31

def digitsVal (s : Str) : Nat := s.foldl (fun a c => 10 * a + (c.toNat - 48)) 0

/-- datetime.strptime(stem, four-digit year, dash, month, dash, day)
(memory.py line 99): the year directive consumes exactly four digits, month
and day one or two, the whole string must be consumed, and the result must be
a valid calendar date with year at least 1; otherwise ValueError. -/
def parseDate (stem : Str) : Option (Nat × Nat × Nat) :=
  match splitCh '-' stem with
  | [ys, ms, ds] =>
    if ys.length = 4 && ys.all Char.isDigit &&
       (ms.length = 1 || ms.length = 2) && ms.all Char.isDigit &&
       (ds.length = 1 || ds.length = 2) && ds.all Char.isDigit then
      let y := digitsVal ys
      let m := digitsVal ms
      let d := digitsVal ds
      if 1 ≤ y && 1 ≤ m && m ≤ 12 && 1 ≤ d && d ≤ monthLen y m then some (y, m, d)
      else none
    else none
  | _ => none

/-- Days from the start of year y to the start of its month m. -/
def daysBeforeMonth (y m : Nat) : Nat :=
  (List.range (m - 1)).foldl (fun a i => a + monthLen y (i + 1)) 0

/-- Proleptic Gregorian day number; datetime values compare like these
numbers, and a whole-day timedelta shifts them by its day count. -/
def dateNum (dt : Nat × Nat × Nat) : Nat :=
  365 * (dt.1 - 1) + (dt.1 - 1) / 4 - (dt.1 - 1) / 100 + (dt.1 - 1) / 400 +
    daysBeforeMonth dt.1 dt.2.1 + dt.2.2

/-- One entry of the results list search_memory_files builds (memory.py
lines 124-129 and 150-155). -/
structure SearchResult where
  path : Str
  date : Str
  score : ℤ
  snippets : List Str
deriving DecidableEq, Repr

/-- Path of a daily file, relative to the memory directory. -/
def dailyPath (stem : Str) : Str := "memory/".data ++ stem ++ ".md".data

def ltPath : Str := "MEMORY.md".data

def ltDate : Str := "long-term".data

/-- The filesystem state a search invocation reads: the daily files of the
memory directory as (stem, content) pairs in arbitrary order, the long-term
file content when that file exists, and the current time in microseconds,
dateUs of a date being its midnight. -/
structure SearchEnv where
  corpus : List (Str × Str)
  longTerm : Option Str
  now : ℤ

/-- Keywords used by the keyword mode (memory.py lines 89-92): the extracted
keywords, or the whole lowercased query when extraction is empty. -/
def effKeywords (q : Str) : List Str :=
  let ks := extract_keywords q
  if ks.isEmpty then [lowerStr q] else ks

/-- The two search modes after pattern compilation is resolved. -/
inductive Mode where
  | kw (ks : List Str)
  | rx (find : Str → List (Nat × Nat))

/-- Pattern compilation and silent fallback (memory.py lines 80-92). compile
abstracts re.compile with IGNORECASE: none when it raises re.error, otherwise
the finditer span list per content. -/
def modeOf (q : Str) (useRegex : Bool) (compile : Str → Option (Str → List (Nat × Nat))) : Mode :=
  if useRegex then
    match compile q with
    | some f => Mode.rx f
    | none => Mode.kw (effKeywords q)
  else Mode.kw (effKeywords q)

/-- Score of one document (memory.py lines 112-115 and 139-142). -/
def scoreOf (mode : Mode) (content : Str) : Option ℤ :=
  match mode with
  | Mode.rx f => some (score_content_regex content (f content))
  | Mode.kw ks => score_content content ks

/-- Snippets of one document (memory.py lines 119-122 and 145-148). -/
def snipsOf (mode : Mode) (content : Str) : List Str :=
  match mode with
  | Mode.rx f => extract_snippets_regex content (f content)
  | Mode.kw ks => extract_snippets content ks

/-- The tag pre-filter passes when tags is falsy (absent or empty) or
has_tags holds (memory.py lines 107-109 and 136). -/
def tagsPass (tags : Option (List Str)) (content : Str) : Bool :=
  match tags with
  | none => true
  | some ts => ts.isEmpty || has_tags content ts

/-- Microseconds per day; a whole-day timedelta is exactly this many. -/
def usPerDay : ℤ := 86400000000

/-- The datetime of midnight of a date, in microseconds. -/
def dateUs (dt : Nat × Nat × Nat) : ℤ := (dateNum dt : ℤ) * usPerDay

/-- cutoff_date (memory.py lines 75-77): present only when days is truthy,
that is, given and nonzero. -/
def cutoffOf (now : ℤ) (days : Option ℤ) : Option ℤ :=
  match days with
  | none => none
  | some d => if d = 0 then none else some (now - d * usPerDay)

/-- Code point order on strings, as Python compares them. -/
def strLt : Str → Str → Bool
  | [], [] => false
  | [], _ :: _ => true
  | _ :: _, [] => false
  | a :: ra, b :: rb => decide (a.toNat < b.toNat) || (decide (a.toNat = b.toNat) && strLt ra rb)

/-- Sort key of a daily file: its file name. -/
def fileKey (f : Str × Str) : Str := f.1 ++ ".md".data

def insertFileDesc (x : Str × Str) : List (Str × Str) → List (Str × Str)
  | [] => [x]
  | y :: r => if strLt (fileKey y) (fileKey x) then x :: y :: r else y :: insertFileDesc x r

/-- sorted(glob, reverse=True) (memory.py line 96): stable, descending by
file name. -/
def sortFilesDesc (l : List (Str × Str)) : List (Str × Str) :=
  l.foldl (fun acc x => insertFileDesc x acc) []

/-- The date-window test (memory.py line 100): false when no cutoff is set. -/
def cutFails (cutoff : Option ℤ) (dt : Nat × Nat × Nat) : Bool :=
  match cutoff with
  | some c => decide (dateUs dt < c)
  | none => false

/-- The daily-file loop of search_memory_files (memory.py lines 96-129),
over the files already in glob order.  none models an exception escaping
score_content. -/
def collectDaily (mode : Mode) (cutoff : Option ℤ) (tags : Option (List Str)) :
    List (Str × Str) → Option (List SearchResult)
  | [] => some []
  | (stem, content) :: rest =>
    match parseDate stem with
    | none => collectDaily mode cutoff tags rest
    | some dt =>
      if cutFails cutoff dt then
        collectDaily mode cutoff tags rest
      else if !tagsPass tags content then collectDaily mode cutoff tags rest
      else
        match scoreOf mode content with
        | none => none
        | some s =>
          if 0 < s then
            (collectDaily mode cutoff tags rest).map
              (fun rs => ⟨dailyPath stem, stem, s, (snipsOf mode content).take 3⟩ :: rs)
          else collectDaily mode cutoff tags rest

/-- The MEMORY.md block of search_memory_files (memory.py lines 132-155):
tag filter, score, 1.5 multiplier (times 3 over 2: exact, since every score
in quarter points is even); no date filter is applied. -/
def collectLong (mode : Mode) (tags : Option (List Str)) : Option Str → Option (List SearchResult)
  | none => some []
  | some content =>
    if !tagsPass tags content then some []
    else
      match scoreOf mode content with
      | none => none
      | some s =>
        if 0 < s then
          some [⟨ltPath, ltDate, s * 3 / 2, (snipsOf mode content).take 3⟩]
        else some []

/-- Stable insertion before the first strictly smaller score. -/
def insertDesc (x : SearchResult) : List SearchResult → List SearchResult
  | [] => [x]
  | y :: r => if y.score < x.score then x :: y :: r else y :: insertDesc x r

/-- results.sort(key=score, reverse=True) (memory.py line 158): stable
descending sort by score. -/
def sortResults (l : List SearchResult) : List SearchResult :=
  l.foldl (fun acc x => insertDesc x acc) []

/-- search_memory_files with the mode already resolved (memory.py lines
62-159): collect daily results in descending file-name order, then the
long-term result, sort by score, return the first maxResults. -/
def searchCore (mode : Mode) (maxResults : Nat) (days : Option ℤ) (tags : Option (List Str))
    (env : SearchEnv) : Option (List SearchResult) :=
  match collectDaily mode (cutoffOf env.now days) tags (sortFilesDesc env.corpus),
        collectLong mode tags env.longTerm with
  | some d, some l => some ((sortResults (d ++ l)).take maxResults)
  | _, _ => none

/-- search_memory_files (memory.py lines 62-159). -/
def search_memory_files (q : Str) (maxResults : Nat) (days : Option ℤ) (useRegex : Bool)
    (tags : Option (List Str)) (compile : Str → Option (Str → List (Nat × Nat)))
    (env : SearchEnv) : Option (List SearchResult) :=
  searchCore (modeOf q useRegex compile) maxResults days tags env

/-- Chronological (lexicographic) order on parsed dates. -/
def dateLt (a b : Nat × Nat × Nat) : Prop :=
  a.1 < b.1 ∨ (a.1 = b.1 ∧ (a.2.1 < b.2.1 ∨ (a.2.1 = b.2.1 ∧ a.2.2 < b.2.2)))

/-- A canonically formatted date stem: four digits, dash, two digits, dash,
two digits, exactly ten characters. -/
def canonicalStem : Str → Bool
  | y1 :: y2 :: y3 :: y4 :: c5 :: m1 :: m2 :: c8 :: d1 :: d2 :: rest =>
    y1.isDigit && y2.isDigit && y3.isDigit && y4.isDigit && decide (c5 = '-') &&
    m1.isDigit && m2.isDigit && decide (c8 = '-') && d1.isDigit && d2.isDigit &&
    rest.isEmpty
  | _ => false

/-- Value of a digit string, written positionally (used to relate code point
order of equal-width digit strings to numeric order). -/
def digitsValPoly : Str → Nat
  | [] => 0
  | c :: r => (c.toNat - 48) * 10 ^ r.length + digitsValPoly r

/-- Modelled from the claim wording of C1, not from the source: weight 3 when
some heading line (a line starting with one or more hashes) contains the
keyword, else 2 when some bullet line (dash or star after leading whitespace)
contains it, else 1. -/
def c1SpecWeight (content : Str) (k : Str) : ℤ :=
  let lines := splitNl (lowerStr content)
  if lines.any (fun l => l.head? = some '#' && pyIn k l) then 12
  else if lines.any (fun l =>
      (match (l.dropWhile isPySpace).head? with
       | some '-' => true
       | some '*' => true
       | _ => false) && pyIn k l) then 8
  else 4

/-- Modelled from the claim wording of C1: sum over keywords of occurrence
count in the lowercased content times the weight. -/
def c1SpecScore (content : Str) (ks : List Str) : ℤ :=
  (ks.map (fun k => (pyCount k (lowerStr content) : ℤ) * c1SpecWeight content k)).sum

/-- Modelled from the claim wording of C2: the bonus inspects the full line
containing the match's end offset; 3 when it starts with a hash, else 1.5
when its left-trimmed form starts with dash, star or plus. -/
def c2SpecBonus (content : Str) (m : Nat × Nat) : ℤ :=
  let line := lineSeg (content.drop (lineStartIdx content m.2))
  if line.head? = some '#' then 12
  else
    match (line.dropWhile isPySpace).head? with
    | some '-' => 6
    | some '*' => 6
    | some '+' => 6
    | _ => 0

/-- Modelled from the claim wording of C2: 2 per match plus the per-match
end-line bonus. -/
def c2SpecScore (content : Str) (ms : List (Nat × Nat)) : ℤ :=
  if ms.isEmpty then 0 else 8 * ms.length + (ms.map (c2SpecBonus content)).sum

/-- Modelled from the claim wording of C6: a tag matches only in one of
exactly the four literal forms hash-tag, bracketed tag, double-bracketed tag,
or tag immediately followed by a colon at the start of a line after optional
leading whitespace. -/
def c6SpecMatch (content : Str) (tags : List Str) : Bool :=
  let cl := lowerStr content
  tags.any (fun tag =>
    let tl := lowerStr tag
    pyIn ('#' :: tl) cl ||
    pyIn ('[' :: (tl ++ [']'])) cl ||
    pyIn ('[' :: '[' :: (tl ++ [']', ']'])) cl ||
    (splitNl cl).any (fun l => (tl ++ [':']).isPrefixOf (l.dropWhile isPySpace)))

/-- Declarative form of the colon tag pattern: from some line start, optional
whitespace, the tag, optional whitespace (both possibly spanning newlines),
then a colon. -/
def ColonLineStart (tl cl : Str) : Prop :=
  ∃ pre w1 w2 rest, cl = pre ++ w1 ++ tl ++ w2 ++ ':' :: rest ∧
    (pre = [] ∨ ∃ pre2, pre = pre2 ++ ['\n']) ∧
    (∀ c ∈ w1, isPySpace c = true) ∧ (∀ c ∈ w2, isPySpace c = true)

/-- The colon tag pattern matched at one position: optional whitespace, the
tag, optional whitespace, then a colon. -/
def TagColonAt (tl x : Str) : Prop :=
  ∃ w1 w2 rest, x = w1 ++ tl ++ w2 ++ ':' :: rest ∧
    (∀ c ∈ w1, isPySpace c = true) ∧ (∀ c ∈ w2, isPySpace c = true)

/-- Start of the line containing position p, computed as the length of the
prefix minus the length of its trailing newline-free run. -/
def lineStartSpec (content : Str) (p : Nat) : Nat :=
  (content.take p).length - ((content.take p).reverse.takeWhile (fun c => c ≠ '\n')).length

/-- Per-match bonus as the amended C2 states it, written independently of the
foldl in score_content_regex. -/
def c2AmendedBonus (content : Str) (m : Nat × Nat) : ℤ :=
  let line := (content.take m.2).drop (lineStartSpec content m.1)
  if line.head? = some '#' then 12
  else if markerSpace (stripBoth line) then 6
  else 0

/-- Duplicate removal keeping the first occurrence, by filtering later copies. -/
def pdedupFilter : List Str → List Str
  | [] => []
  | s :: r => s :: pdedupFilter (r.filter (fun x => decide (x ≠ s)))
termination_by l => l.length
decreasing_by
  simp only [List.length_cons]
  exact Nat.lt_succ_of_le (List.length_filter_le _ _)

/-- Snippet list as the C7 claim describes it: one window per matching line,
in line order. -/
def c7SnipList (content : Str) (kws : List Str) : List Str :=
  (((splitNl content).enum).filter (fun p => kws.any (fun k => pyIn k (lowerStr p.2)))).map
    (fun p => snippetWindow (splitNl content) p.1)

/-- list_memories (memory.py lines 261-295), reduced to the date keys it
reports (file sizes and modification times are filesystem metadata outside
the model). -/
def list_memories (days : Option ℤ) (env : SearchEnv) : List Str :=
  ((sortFilesDesc env.corpus).filterMap (fun f =>
    match parseDate f.1 with
    | none => none
    | some dt => if cutFails (cutoffOf env.now days) dt then none else some f.1)) ++
  (match env.longTerm with | some _ => [ltDate] | none => [])

/-- A compile function modelling a query whose compilation raises re.error. -/
def noCompile : Str → Option (Str → List (Nat × Nat)) := fun _ => none

/-- Corpus with one daily file containing hello, time 2024-01-02. -/
def envHello : SearchEnv :=
  ⟨[("2024-01-01".data, "hello".data)], none, dateUs (2024, 1, 2)⟩

/-- Corpus with one daily file containing abc, time 2024-01-02. -/
def envAbc : SearchEnv :=
  ⟨[("2024-01-01".data, "abc".data)], none, dateUs (2024, 1, 2)⟩

/-- Daily document scoring 5 and long-term document scoring 4 on query abc. -/
def envBoost : SearchEnv :=
  ⟨[("2024-01-01".data, "abc abc abc abc abc".data)],
   some ("abc abc abc abc".data), dateUs (2024, 1, 2)⟩

/-- Two equal-scoring daily files for the stable-tie example, time 2024-01-03. -/
def envTie : SearchEnv :=
  ⟨[("2024-01-01".data, "abc".data), ("2024-01-02".data, "abc".data)],
   none, dateUs (2024, 1, 3)⟩

/-- One daily file dated 2024-01-02 while now is noon of 2024-01-02. -/
def envNoon : SearchEnv :=
  ⟨[("2024-01-02".data, "abc".data)], none, dateUs (2024, 1, 2) + usPerDay / 2⟩

/-- A malformed stem beside a well-formed one, plus a long-term file. -/
def envMalformed : SearchEnv :=
  ⟨[("notes".data, "abc".data), ("2024-01-01".data, "abc".data)],
   some ("nothing here".data), dateUs (2024, 1, 2)⟩

/-- Content containing an opening parenthesis, for the crash input. -/
def envParen : SearchEnv :=
  ⟨[("2024-01-01".data, "x(y".data)], none, dateUs (2024, 1, 2)⟩

/-- The single result the search over envAbc produces for query abc. -/
def wAbcRes : SearchResult :=
  ⟨dailyPath ("2024-01-01".data), "2024-01-01".data, 4, [("abc".data)]⟩

/-- First result of the tie example (discovered first: later date). -/
def tieA : SearchResult :=
  ⟨dailyPath ("2024-01-02".data), "2024-01-02".data, 4, [("abc".data)]⟩

/-- Second result of the tie example. -/
def tieB : SearchResult :=
  ⟨dailyPath ("2024-01-01".data), "2024-01-01".data, 4, [("abc".data)]⟩

end MemorySearch

namespace MemorySearch

/-! ### Helper lemmas (no claim theorems among these). -/

theorem pyIn_nil (h : Str) : pyIn [] h = true := by
  induction h with
  | nil => rfl
  | cons c t ih => simp [pyIn, List.isPrefixOf]

theorem pyCountAux_zero_of_not_in (n : Str) (h : Str) (hp : pyIn n h = false) :
    pyCountAux n 0 h = 0 := by
  induction h with
  | nil => rfl
  | cons c t ih =>
    simp only [pyIn, Bool.or_eq_false_iff] at hp
    simp only [pyCountAux, hp.1, if_false]
    exact ih hp.2

theorem pyCount_zero_of_not_in (n h : Str) (hp : pyIn n h = false) : pyCount n h = 0 := by
  cases n with
  | nil => rw [pyIn_nil] at hp; cases hp
  | cons a m =>
    simp only [pyCount, List.isEmpty_cons, if_false, Bool.false_eq_true]
    exact pyCountAux_zero_of_not_in _ _ hp

theorem scoreContentAux_closed (content cl : Str) (ks : List Str)
    (hlit : ∀ k ∈ ks, isLitKw k = true) (acc : ℤ) :
    scoreContentAux content cl acc ks =
      some (acc + (ks.map (fun k => (pyCount k cl : ℤ) * kwWeight content k)).sum) := by
  induction ks generalizing acc with
  | nil => simp [scoreContentAux]
  | cons k ks ih =>
    have hk : isLitKw k = true := hlit k (List.mem_cons_self _ _)
    have hrest : ∀ k2 ∈ ks, isLitKw k2 = true := fun k2 h2 => hlit k2 (List.mem_cons_of_mem _ h2)
    by_cases hin : pyIn k cl = true
    · simp only [scoreContentAux, scoreKeyword, hin, if_true, hk]
      rw [ih hrest]
      simp [add_assoc]
    · have hin2 : pyIn k cl = false := by simpa using hin
      have hc : pyCount k cl = 0 := pyCount_zero_of_not_in _ _ hin2
      simp only [scoreContentAux, scoreKeyword, hin2, Bool.false_eq_true, if_false]
      rw [ih hrest]
      simp [hc]

theorem score_content_closed (content : Str) (ks : List Str)
    (hlit : ∀ k ∈ ks, isLitKw k = true) :
    score_content content ks =
      some ((ks.map (fun k => (pyCount k (lowerStr content) : ℤ) * kwWeight content k)).sum) := by
  have := scoreContentAux_closed content (lowerStr content) ks hlit 0
  simpa [score_content] using this

theorem extract_keywords_lit (q : Str) : ∀ k ∈ extract_keywords q, isLitKw k = true := by
  intro k hk
  simp only [extract_keywords, List.mem_filter] at hk
  have halpha : k.all Char.isAlpha = true := hk.1.2
  simp only [isLitKw, List.all_eq_true] at *
  intro c hc
  have := halpha c hc
  simp [this]

theorem effKeywords_ne_nil (q : Str) : effKeywords q ≠ [] := by
  unfold effKeywords
  by_cases h : (extract_keywords q).isEmpty
  · simp [h]
  · simp only [h, Bool.false_eq_true, if_false]
    intro hq
    rw [hq] at h
    simp at h

theorem score_content_total (content : Str) (ks : List Str)
    (hlit : ∀ k ∈ ks, isLitKw k = true) : ∃ s, score_content content ks = some s :=
  ⟨_, score_content_closed content ks hlit⟩

theorem scoreOf_kw_total (ks : List Str) (hlit : ∀ k ∈ ks, isLitKw k = true) (content : Str) :
    ∃ s, scoreOf (Mode.kw ks) content = some s :=
  score_content_total content ks hlit

theorem collectDaily_total (mode : Mode) (cutoff : Option ℤ) (tags : Option (List Str))
    (hs : ∀ content, ∃ s, scoreOf mode content = some s) :
    ∀ files, ∃ d, collectDaily mode cutoff tags files = some d := by
  intro files
  induction files with
  | nil => exact ⟨[], rfl⟩
  | cons f rest ih =>
    obtain ⟨stem, content⟩ := f
    obtain ⟨d, hd⟩ := ih
    cases hpd : parseDate stem with
    | none => exact ⟨d, by simp [collectDaily, hpd, hd]⟩
    | some dt =>
      cases hcut : cutFails cutoff dt with
      | true => exact ⟨d, by simp [collectDaily, hpd, hcut, hd]⟩
      | false =>
        cases htag : tagsPass tags content with
        | false => exact ⟨d, by simp [collectDaily, hpd, hcut, htag, hd]⟩
        | true =>
          obtain ⟨s, hsc⟩ := hs content
          by_cases hpos : 0 < s
          · exact ⟨⟨dailyPath stem, stem, s, (snipsOf mode content).take 3⟩ :: d,
              by simp [collectDaily, hpd, hcut, htag, hsc, hpos, hd]⟩
          · exact ⟨d, by simp [collectDaily, hpd, hcut, htag, hsc, hpos, hd]⟩

theorem collectLong_total (mode : Mode) (tags : Option (List Str))
    (hs : ∀ content, ∃ s, scoreOf mode content = some s) :
    ∀ lt, ∃ l, collectLong mode tags lt = some l := by
  intro lt
  cases lt with
  | none => exact ⟨[], rfl⟩
  | some content =>
    cases htag : tagsPass tags content with
    | false => exact ⟨[], by simp [collectLong, htag]⟩
    | true =>
      obtain ⟨s, hsc⟩ := hs content
      by_cases hpos : 0 < s
      · exact ⟨[⟨ltPath, ltDate, s * 3 / 2, (snipsOf mode content).take 3⟩],
          by simp [collectLong, htag, hsc, hpos]⟩
      · exact ⟨[], by simp [collectLong, htag, hsc, hpos]⟩

theorem mem_insertDesc {x r : SearchResult} : ∀ {acc : List SearchResult},
    r ∈ insertDesc x acc ↔ r = x ∨ r ∈ acc := by
  intro acc
  induction acc with
  | nil => simp [insertDesc]
  | cons y t ih =>
    by_cases h : y.score < x.score
    · simp [insertDesc, h]
    · simp only [insertDesc, h, if_false, List.mem_cons, ih]
      tauto

theorem mem_sortFold (l : List SearchResult) : ∀ (acc : List SearchResult) (r : SearchResult),
    r ∈ l.foldl (fun a x => insertDesc x a) acc ↔ r ∈ acc ∨ r ∈ l := by
  induction l with
  | nil => simp
  | cons x t ih =>
    intro acc r
    rw [List.foldl_cons, ih]
    simp only [mem_insertDesc, List.mem_cons]
    tauto

theorem mem_sortResults {l : List SearchResult} {r : SearchResult} :
    r ∈ sortResults l ↔ r ∈ l := by
  rw [sortResults, mem_sortFold]
  simp

theorem pairwise_insertDesc {x : SearchResult} : ∀ {acc : List SearchResult},
    List.Pairwise (fun a b => b.score ≤ a.score) acc →
    List.Pairwise (fun a b => b.score ≤ a.score) (insertDesc x acc) := by
  intro acc h
  induction acc with
  | nil => simp [insertDesc]
  | cons y t ih =>
    rcases List.pairwise_cons.1 h with ⟨hy, ht⟩
    by_cases hlt : y.score < x.score
    · rw [insertDesc, if_pos hlt]
      refine List.pairwise_cons.2 ⟨?_, h⟩
      intro z hz
      rcases List.mem_cons.1 hz with rfl | hz2
      · exact le_of_lt hlt
      · exact le_trans (hy z hz2) (le_of_lt hlt)
    · rw [insertDesc, if_neg hlt]
      refine List.pairwise_cons.2 ⟨?_, ih ht⟩
      intro z hz
      rcases mem_insertDesc.1 hz with rfl | hz2
      · exact le_of_not_lt hlt
      · exact hy z hz2

theorem sortFold_sorted (l : List SearchResult) : ∀ (acc : List SearchResult),
    List.Pairwise (fun a b => b.score ≤ a.score) acc →
    List.Pairwise (fun a b => b.score ≤ a.score) (l.foldl (fun a x => insertDesc x a) acc) := by
  induction l with
  | nil => intro acc h; exact h
  | cons x t ih => intro acc h; exact ih _ (pairwise_insertDesc h)

theorem sortResults_sorted (l : List SearchResult) :
    List.Pairwise (fun a b => b.score ≤ a.score) (sortResults l) :=
  sortFold_sorted l [] List.Pairwise.nil

theorem filter_insertDesc (s : ℤ) (x : SearchResult) : ∀ (acc : List SearchResult),
    List.Pairwise (fun a b => b.score ≤ a.score) acc →
    (insertDesc x acc).filter (fun r => decide (r.score = s)) =
      acc.filter (fun r => decide (r.score = s)) ++ (if x.score = s then [x] else []) := by
  intro acc h
  induction acc with
  | nil =>
    by_cases hx : x.score = s <;> simp [insertDesc, List.filter, hx]
  | cons y t ih =>
    rcases List.pairwise_cons.1 h with ⟨hy, ht⟩
    by_cases hlt : y.score < x.score
    · rw [insertDesc, if_pos hlt]
      by_cases hx : x.score = s
      · have hyt : (y :: t).filter (fun r => decide (r.score = s)) = [] := by
          rw [List.filter_eq_nil_iff]
          intro a ha
          rcases List.mem_cons.1 ha with rfl | ha2
          · simp only [decide_eq_true_eq]
            omega
          · have := hy a ha2
            simp only [decide_eq_true_eq]
            omega
        rw [List.filter_cons_of_pos (by simp [hx]), hyt, hx]
        simp
      · rw [List.filter_cons_of_neg (by simp [hx])]
        simp [hx]
    · rw [insertDesc, if_neg hlt]
      by_cases hys : y.score = s
      · rw [List.filter_cons_of_pos (by simp [hys]), List.filter_cons_of_pos (by simp [hys]),
          ih ht]
        simp
      · rw [List.filter_cons_of_neg (by simp [hys]), List.filter_cons_of_neg (by simp [hys]),
          ih ht]

theorem sortFold_stable (s : ℤ) : ∀ (l acc : List SearchResult),
    List.Pairwise (fun a b => b.score ≤ a.score) acc →
    (l.foldl (fun a x => insertDesc x a) acc).filter (fun r => decide (r.score = s)) =
      acc.filter (fun r => decide (r.score = s)) ++ l.filter (fun r => decide (r.score = s)) := by
  intro l
  induction l with
  | nil => intro acc h; simp
  | cons x t ih =>
    intro acc h
    rw [List.foldl_cons, ih _ (pairwise_insertDesc h), filter_insertDesc s x acc h]
    by_cases hx : x.score = s
    · rw [List.filter_cons_of_pos (by simp [hx])]
      simp [hx]
    · rw [List.filter_cons_of_neg (by simp [hx])]
      simp [hx]

theorem sortResults_stable (s : ℤ) (l : List SearchResult) :
    (sortResults l).filter (fun r => decide (r.score = s)) =
      l.filter (fun r => decide (r.score = s)) := by
  have := sortFold_stable s l [] List.Pairwise.nil
  simpa [sortResults] using this

theorem mem_insertFileDesc {x f : Str × Str} : ∀ {acc : List (Str × Str)},
    f ∈ insertFileDesc x acc ↔ f = x ∨ f ∈ acc := by
  intro acc
  induction acc with
  | nil => simp [insertFileDesc]
  | cons y t ih =>
    by_cases h : strLt (fileKey y) (fileKey x) = true
    · simp [insertFileDesc, h]
    · simp only [insertFileDesc, h, if_false, List.mem_cons, ih, Bool.false_eq_true]
      tauto

theorem mem_sortFilesFold (l : List (Str × Str)) : ∀ (acc : List (Str × Str)) (f : Str × Str),
    f ∈ l.foldl (fun a x => insertFileDesc x a) acc ↔ f ∈ acc ∨ f ∈ l := by
  induction l with
  | nil => simp
  | cons x t ih =>
    intro acc f
    rw [List.foldl_cons, ih]
    simp only [mem_insertFileDesc, List.mem_cons]
    tauto

theorem mem_sortFilesDesc {l : List (Str × Str)} {f : Str × Str} :
    f ∈ sortFilesDesc l ↔ f ∈ l := by
  rw [sortFilesDesc, mem_sortFilesFold]
  simp

theorem searchCore_inv {mode : Mode} {maxR : Nat} {days : Option ℤ} {tags : Option (List Str)}
    {env : SearchEnv} {res : List SearchResult}
    (h : searchCore mode maxR days tags env = some res) :
    ∃ d l, collectDaily mode (cutoffOf env.now days) tags (sortFilesDesc env.corpus) = some d ∧
      collectLong mode tags env.longTerm = some l ∧
      res = (sortResults (d ++ l)).take maxR := by
  cases hd : collectDaily mode (cutoffOf env.now days) tags (sortFilesDesc env.corpus) with
  | none => rw [searchCore, hd] at h; cases h
  | some d =>
    cases hl : collectLong mode tags env.longTerm with
    | none => rw [searchCore, hd, hl] at h; cases h
    | some l =>
      rw [searchCore, hd, hl] at h
      exact ⟨d, l, rfl, rfl, (Option.some.inj h).symm⟩

theorem collectDaily_inv {mode : Mode} {cutoff : Option ℤ} {tags : Option (List Str)} :
    ∀ {files : List (Str × Str)} {rs : List SearchResult},
    collectDaily mode cutoff tags files = some rs →
    ∀ r ∈ rs, ∃ stem content dt, (stem, content) ∈ files ∧ parseDate stem = some dt ∧
      cutFails cutoff dt = false ∧ tagsPass tags content = true ∧
      r.path = dailyPath stem ∧ r.date = stem ∧
      scoreOf mode content = some r.score ∧ 0 < r.score ∧
      r.snippets = (snipsOf mode content).take 3 := by
  intro files
  induction files with
  | nil =>
    intro rs h r hr
    simp only [collectDaily, Option.some.injEq] at h
    subst h
    cases hr
  | cons f rest ih =>
    obtain ⟨stem, content⟩ := f
    intro rs h r hr
    cases hpd : parseDate stem with
    | none =>
      simp only [collectDaily, hpd] at h
      obtain ⟨s2, c2, dt2, hmem, rest2⟩ := ih h r hr
      exact ⟨s2, c2, dt2, List.mem_cons_of_mem _ hmem, rest2⟩
    | some dt =>
      cases hcut : cutFails cutoff dt with
      | true =>
        simp only [collectDaily, hpd, hcut, if_true] at h
        obtain ⟨s2, c2, dt2, hmem, rest2⟩ := ih h r hr
        exact ⟨s2, c2, dt2, List.mem_cons_of_mem _ hmem, rest2⟩
      | false =>
        cases htag : tagsPass tags content with
        | false =>
          simp only [collectDaily, hpd, hcut, htag, Bool.false_eq_true, if_false, Bool.not_false,
            if_true] at h
          obtain ⟨s2, c2, dt2, hmem, rest2⟩ := ih h r hr
          exact ⟨s2, c2, dt2, List.mem_cons_of_mem _ hmem, rest2⟩
        | true =>
          cases hsc : scoreOf mode content with
          | none => simp [collectDaily, hpd, hcut, htag, hsc] at h
          | some s =>
            by_cases hpos : 0 < s
            · simp only [collectDaily, hpd, hcut, htag, hsc, hpos, Bool.false_eq_true, if_false,
                Bool.not_true, if_true, Option.map_eq_some'] at h
              obtain ⟨rs0, hrs0, hcons⟩ := h
              subst hcons
              rcases List.mem_cons.1 hr with rfl | hr2
              · exact ⟨stem, content, dt, List.mem_cons_self _ _, hpd, hcut, htag, rfl, rfl,
                  hsc, hpos, rfl⟩
              · obtain ⟨s2, c2, dt2, hmem, rest2⟩ := ih hrs0 r hr2
                exact ⟨s2, c2, dt2, List.mem_cons_of_mem _ hmem, rest2⟩
            · simp only [collectDaily, hpd, hcut, htag, hsc, hpos, Bool.false_eq_true, if_false,
                Bool.not_true, if_true] at h
              obtain ⟨s2, c2, dt2, hmem, rest2⟩ := ih h r hr
              exact ⟨s2, c2, dt2, List.mem_cons_of_mem _ hmem, rest2⟩

theorem collectLong_inv {mode : Mode} {tags : Option (List Str)} {lt : Option Str}
    {rs : List SearchResult} (h : collectLong mode tags lt = some rs) :
    ∀ r ∈ rs, ∃ content s, lt = some content ∧ tagsPass tags content = true ∧
      scoreOf mode content = some s ∧ 0 < s ∧
      r = ⟨ltPath, ltDate, s * 3 / 2, (snipsOf mode content).take 3⟩ := by
  cases lt with
  | none =>
    simp only [collectLong, Option.some.injEq] at h
    subst h
    intro r hr
    cases hr
  | some content =>
    cases htag : tagsPass tags content with
    | false =>
      simp only [collectLong, htag, Bool.not_false, if_true, Option.some.injEq] at h
      subst h
      intro r hr
      cases hr
    | true =>
      cases hsc : scoreOf mode content with
      | none => simp [collectLong, htag, hsc] at h
      | some s =>
        by_cases hpos : 0 < s
        · simp only [collectLong, htag, hsc, hpos, Bool.not_true, Bool.false_eq_true, if_false,
            if_true, Option.some.injEq] at h
          subst h
          intro r hr
          rcases List.mem_cons.1 hr with rfl | hr2
          · exact ⟨content, s, rfl, htag, hsc, hpos, rfl⟩
          · cases hr2
        · simp only [collectLong, htag, hsc, hpos, Bool.not_true, Bool.false_eq_true, if_false,
            if_true, Option.some.injEq] at h
          subst h
          intro r hr
          cases hr

theorem ltBoost_pos {s : ℤ} (hs : 0 < s) : 0 < s * 3 / 2 := by
  have h2 : (1 : ℤ) * 2 ≤ s * 3 := by omega
  have := (Int.le_ediv_iff_mul_le (by omega : (0 : ℤ) < 2)).2 h2
  omega

theorem search_pos {q : Str} {maxR : Nat} {days : Option ℤ} {useRegex : Bool}
    {tags : Option (List Str)} {compile : Str → Option (Str → List (Nat × Nat))}
    {env : SearchEnv} {res : List SearchResult}
    (h : search_memory_files q maxR days useRegex tags compile env = some res) :
    ∀ r ∈ res, 0 < r.score := by
  obtain ⟨d, l, hd, hl, hres⟩ := searchCore_inv h
  subst hres
  intro r hr
  have hr2 : r ∈ sortResults (d ++ l) := (List.take_sublist _ _).mem hr
  have hr3 : r ∈ d ++ l := mem_sortResults.1 hr2
  rcases List.mem_append.1 hr3 with hrd | hrl
  · obtain ⟨_, _, _, _, _, _, _, _, _, _, hpos, _⟩ := collectDaily_inv hd r hrd
    exact hpos
  · obtain ⟨content, s, _, _, _, hpos, hreq⟩ := collectLong_inv hl r hrl
    subst hreq
    exact ltBoost_pos hpos

theorem collectDaily_dates_sublist {mode : Mode} {cutoff : Option ℤ} {tags : Option (List Str)} :
    ∀ {files : List (Str × Str)} {rs : List SearchResult},
    collectDaily mode cutoff tags files = some rs →
    List.Sublist (rs.map (fun r => r.date)) (files.map (fun f => f.1)) := by
  intro files
  induction files with
  | nil =>
    intro rs h
    simp only [collectDaily, Option.some.injEq] at h
    subst h
    simp
  | cons f rest ih =>
    obtain ⟨stem, content⟩ := f
    intro rs h
    cases hpd : parseDate stem with
    | none =>
      simp only [collectDaily, hpd] at h
      exact List.Sublist.cons _ (ih h)
    | some dt =>
      cases hcut : cutFails cutoff dt with
      | true =>
        simp only [collectDaily, hpd, hcut, if_true] at h
        exact List.Sublist.cons _ (ih h)
      | false =>
        cases htag : tagsPass tags content with
        | false =>
          simp only [collectDaily, hpd, hcut, htag, Bool.false_eq_true, if_false, Bool.not_false,
            if_true] at h
          exact List.Sublist.cons _ (ih h)
        | true =>
          cases hsc : scoreOf mode content with
          | none => simp [collectDaily, hpd, hcut, htag, hsc] at h
          | some s =>
            by_cases hpos : 0 < s
            · simp only [collectDaily, hpd, hcut, htag, hsc, hpos, Bool.false_eq_true, if_false,
                Bool.not_true, if_true, Option.map_eq_some'] at h
              obtain ⟨rs0, hrs0, hcons⟩ := h
              subst hcons
              simpa using List.Sublist.cons₂ stem (ih hrs0)
            · simp only [collectDaily, hpd, hcut, htag, hsc, hpos, Bool.false_eq_true, if_false,
                Bool.not_true, if_true] at h
              exact List.Sublist.cons _ (ih h)

theorem collectLong_len {mode : Mode} {tags : Option (List Str)} {lt : Option Str}
    {l : List SearchResult} (h : collectLong mode tags lt = some l) : l.length ≤ 1 := by
  cases lt with
  | none =>
    simp only [collectLong, Option.some.injEq] at h
    subst h
    simp
  | some content =>
    cases htag : tagsPass tags content with
    | false =>
      simp only [collectLong, htag, Bool.not_false, if_true, Option.some.injEq] at h
      subst h
      simp
    | true =>
      cases hsc : scoreOf mode content with
      | none => simp [collectLong, htag, hsc] at h
      | some s =>
        by_cases hpos : 0 < s
        · simp only [collectLong, htag, hsc, hpos, Bool.not_true, Bool.false_eq_true, if_false,
            if_true, Option.some.injEq] at h
          subst h
          simp
        · simp only [collectLong, htag, hsc, hpos, Bool.not_true, Bool.false_eq_true, if_false,
            if_true, Option.some.injEq] at h
          subst h
          simp

theorem dailyPath_ne_ltPath (stem : Str) : dailyPath stem ≠ ltPath := by
  intro h
  have h0 : (dailyPath stem).head? = ltPath.head? := congrArg List.head? h
  have h1 : (dailyPath stem).head? = some 'm' := rfl
  have h2 : ltPath.head? = some 'M' := rfl
  rw [h1, h2] at h0
  exact absurd (Option.some.inj h0) (by decide)

theorem kwWeight_dvd (content : Str) (k : Str) : (4 : ℤ) ∣ kwWeight content k := by
  unfold kwWeight
  split
  · decide
  · split <;> decide

theorem scoreKeyword_dvd {content cl k : Str} {v : ℤ} (h : scoreKeyword content cl k = some v) :
    (4 : ℤ) ∣ v := by
  unfold scoreKeyword at h
  split at h
  · split at h
    · exact (Option.some.inj h) ▸ Dvd.dvd.mul_left (kwWeight_dvd content k) _
    · cases h
  · exact (Option.some.inj h) ▸ dvd_zero 4

theorem scoreContentAux_dvd {content cl : Str} : ∀ {ks : List Str} {acc v : ℤ},
    (4 : ℤ) ∣ acc → scoreContentAux content cl acc ks = some v → (4 : ℤ) ∣ v := by
  intro ks
  induction ks with
  | nil =>
    intro acc v hacc h
    simp only [scoreContentAux, Option.some.injEq] at h
    exact h ▸ hacc
  | cons k ks ih =>
    intro acc v hacc h
    simp only [scoreContentAux] at h
    cases hk : scoreKeyword content cl k with
    | none => rw [hk] at h; cases h
    | some s =>
      rw [hk] at h
      exact ih (dvd_add hacc (scoreKeyword_dvd hk)) h

theorem score_content_dvd {content : Str} {ks : List Str} {s : ℤ}
    (h : score_content content ks = some s) : (4 : ℤ) ∣ s :=
  scoreContentAux_dvd (dvd_zero 4) h

theorem regexBonus_even (content : Str) (m : Nat × Nat) : (2 : ℤ) ∣ regexBonus content m := by
  simp only [regexBonus]
  split
  · decide
  · split <;> decide

theorem regexFold_even (content : Str) : ∀ (ms : List (Nat × Nat)) (acc : ℤ),
    (2 : ℤ) ∣ acc → (2 : ℤ) ∣ ms.foldl (fun a m => a + regexBonus content m) acc := by
  intro ms
  induction ms with
  | nil => intro acc h; exact h
  | cons m t ih =>
    intro acc h
    exact ih _ (dvd_add h (regexBonus_even content m))

theorem score_content_regex_even (content : Str) (ms : List (Nat × Nat)) :
    (2 : ℤ) ∣ score_content_regex content ms := by
  unfold score_content_regex
  split
  · exact dvd_zero 2
  · exact regexFold_even content ms _ ⟨4 * ms.length, by ring⟩

theorem scoreOf_even {mode : Mode} {content : Str} {s : ℤ} (h : scoreOf mode content = some s) :
    (2 : ℤ) ∣ s := by
  cases mode with
  | rx f =>
    simp only [scoreOf, Option.some.injEq] at h
    exact h ▸ score_content_regex_even content (f content)
  | kw ks =>
    exact dvd_trans (by decide) (score_content_dvd h)

theorem ltBoost_exact {s : ℤ} (h : (2 : ℤ) ∣ s) : 2 * (s * 3 / 2) = 3 * s := by
  obtain ⟨k, rfl⟩ := h
  rw [show (2 * k * 3 : ℤ) = 2 * (k * 3) by ring, Int.mul_ediv_cancel_left _ (by omega)]
  ring

/-- C1 counterexample: on the document consisting of the single line
hash-caching (no whitespace after the hash) with keyword caching, the code
scores 1.0 (4 quarter points) because the heading pattern requires a
whitespace character after the hashes and the bullet pattern does not fire,
while the claim's formula gives weight 3.0 (12) since a heading line (a line
starting with one or more hashes) contains the keyword. -/
theorem c1_counterexample :
    score_content ("#caching".data) [("caching".data)] = some 4 ∧
    c1SpecScore ("#caching".data) [("caching".data)] = 12 := by
  constructor <;> decide

/-- C2 counterexample.  First input: content dash-x with one match spanning
the x; the code gives no bullet bonus (score 2.0) because it requires the
marker to be followed by a space, while the claim's formula gives 1.5 since
the left-trimmed line starts with a dash (3.5 total; quarter points: 8 versus
14).  Second input: a match spanning from the heading line onto the next
line; the code inspects the line containing the match's start and awards 3.0
(total 5.0, here 20), while the claim inspects the line containing the end
offset and awards nothing (total 2.0, here 8). -/
theorem c2_counterexample :
    score_content_regex ("-x".data) [(1, 2)] = 8 ∧
    c2SpecScore ("-x".data) [(1, 2)] = 14 ∧
    score_content_regex ("# a\nb".data) [(2, 5)] = 20 ∧
    c2SpecScore ("# a\nb".data) [(2, 5)] = 8 := by
  refine ⟨by decide, by decide, by decide, by decide⟩

/-- C3 counterexample: for the invalid pattern hello-open-paren the code
falls back to the normal keyword search, which extracts the keyword hello and
finds the document containing hello; the claimed behaviour (the raw lowercased
query as the single sole keyword) would score every document 0 and return
nothing.  The two behaviours differ on this corpus. -/
theorem c3_counterexample :
    search_memory_files ("hello(".data) 5 none true none noCompile envHello =
      some [⟨dailyPath ("2024-01-01".data), "2024-01-01".data, 4, [("hello".data)]⟩] ∧
    searchCore (Mode.kw [lowerStr ("hello(".data)]) 5 none none envHello = some [] := by
  constructor <;> decide

/-- C6 counterexample: the content project-space-colon at the start of a line
matches tag project in the code (the colon pattern allows whitespace between
the tag and the colon), but it is none of the claim's four literal forms. -/
theorem c6_counterexample :
    has_tags ("project :".data) [("project".data)] = true ∧
    c6SpecMatch ("project :".data) [("project".data)] = false := by
  constructor <;> decide

/-- C8 counterexample: the extractor does not deduplicate; the query
cat-space-cat yields the token cat twice, so the result is not the
deduplicated set the claim describes.  The duplicate is observable: each copy
contributes to the score separately. -/
theorem c8_counterexample :
    extract_keywords ("cat cat".data) = [("cat".data), ("cat".data)] ∧
    ¬ (extract_keywords ("cat cat".data)).Nodup := by
  constructor <;> decide

/-- C9 counterexample: with days equal to 0 a window is given, and the daily
document dated 2024-01-02 midnight is earlier than now (noon of 2024-01-02)
minus 0 days, so the claim says it is excluded; but the code treats a zero
days value as no window at all (Python truthiness) and returns the document. -/
theorem c9_counterexample :
    search_memory_files ("abc".data) 5 (some 0) false none noCompile envNoon =
      some [⟨dailyPath ("2024-01-02".data), "2024-01-02".data, 4, [("abc".data)]⟩] ∧
    dateUs (2024, 1, 2) < envNoon.now - 0 * usPerDay := by
  constructor <;> decide

/-- C10 counterexample: keyword-mode search raises.  The query consisting of
a single opening parenthesis extracts no keywords, so the whole query becomes
the sole keyword; it occurs in the document x-open-paren-y, so score_content
interpolates it into the heading pattern, whose compilation raises re.error
(missing closing parenthesis), and the exception escapes search_memory_files.
none is the model of that escape. -/
theorem c10_counterexample :
    search_memory_files ("(".data) 5 none false none noCompile envParen = none := by
  decide


/-- C1 amended: for every document content and every list of regex-literal
keywords (in particular all keywords extract_keywords produces), the score is
the sum over keywords of occurrence count in the lowercased content times the
weight, where the weight is 3.0 when the heading pattern fires (a line whose
leading run of hashes is followed by a whitespace character with the keyword
later in that stretch - the caret-hashes-whitespace-dotstar-keyword test),
otherwise 2.0 when the bullet pattern fires (first non-whitespace after a
line start is a dash or star followed by a whitespace and then the keyword),
otherwise 1.0 - heading takes precedence; and any document whose score is 0
is excluded from search results (every returned result has positive score).
Scores in quarter points: 12, 8, 4. -/
theorem c1_keyword_scoring :
    (∀ (content : Str) (ks : List Str), (∀ k ∈ ks, isLitKw k = true) →
      score_content content ks =
        some ((ks.map (fun k => (pyCount k (lowerStr content) : ℤ) * kwWeight content k)).sum)) ∧
    (∀ (q : Str) (maxR : Nat) (days : Option ℤ) (useRegex : Bool) (tags : Option (List Str))
       (compile : Str → Option (Str → List (Nat × Nat))) (env : SearchEnv)
       (res : List SearchResult),
      search_memory_files q maxR days useRegex tags compile env = some res →
      ∀ r ∈ res, 0 < r.score) :=
  ⟨score_content_closed,
   fun _ _ _ _ _ _ _ _ h => search_pos h⟩

/-- Witness for c1_keyword_scoring at concrete inputs. -/
theorem c1_witness :
    score_content ("# x abc".data) [("abc".data)] =
      some (([("abc".data)].map
        (fun k => (pyCount k (lowerStr ("# x abc".data)) : ℤ) * kwWeight ("# x abc".data) k)).sum) ∧
    0 < wAbcRes.score :=
  ⟨c1_keyword_scoring.1 ("# x abc".data) [("abc".data)] (by decide),
   c1_keyword_scoring.2 ("abc".data) 5 none false none noCompile envAbc [wAbcRes]
     (by decide) wAbcRes (List.mem_cons_self _ _)⟩

/-- C3 amended: when compilation of the query fails, search with use_regex
true silently equals the ordinary keyword-mode search on the same query (so
it never raises beyond what keyword mode itself does); the raw lowercased
query becomes the single sole keyword only when keyword extraction of the
query is empty. -/
theorem c3_regex_fallback :
    ∀ (q : Str) (maxR : Nat) (days : Option ℤ) (tags : Option (List Str))
      (compile : Str → Option (Str → List (Nat × Nat))) (env : SearchEnv),
      compile q = none →
      (search_memory_files q maxR days true tags compile env =
        search_memory_files q maxR days false tags compile env) ∧
      (extract_keywords q = [] → modeOf q true compile = Mode.kw [lowerStr q]) := by
  intro q maxR days tags compile env hc
  constructor
  · unfold search_memory_files modeOf
    rw [hc]
    simp
  · intro hk
    unfold modeOf effKeywords
    rw [hc, hk]
    simp

/-- Witness for c3_regex_fallback: the invalid pattern hello-open-paren. -/
theorem c3_witness :
    search_memory_files ("hello(".data) 5 none true none noCompile envHello =
      search_memory_files ("hello(".data) 5 none false none noCompile envHello :=
  (c3_regex_fallback ("hello(".data) 5 none none noCompile envHello rfl).1


/-- C5 confirmed: whenever search returns and the long-term file exists, any
returned long-term result carries exactly 1.5 times the raw score of the
long-term content (in quarter points: score = s * 3 / 2, exactly, as every
raw score is even so twice the stored score is three times the raw score);
every non-long-term result carries the raw unmultiplied score of its daily
document; and the long-term result is never subject to the date-window
filter: for every days value, if the long-term content passes the tag filter
and scores positively, the boosted long-term entry is present in the
pre-truncation sorted list. -/
theorem c5_longterm_boost (q : Str) (maxR : Nat) (days : Option ℤ) (useRegex : Bool)
    (tags : Option (List Str)) (compile : Str → Option (Str → List (Nat × Nat)))
    (env : SearchEnv) (ltC : Str) (res : List SearchResult)
    (henv : env.longTerm = some ltC)
    (h : search_memory_files q maxR days useRegex tags compile env = some res) :
    (∀ r ∈ res, r.path = ltPath →
      ∃ s, scoreOf (modeOf q useRegex compile) ltC = some s ∧ 0 < s ∧
        r.score = s * 3 / 2 ∧ 2 * r.score = 3 * s) ∧
    (∀ r ∈ res, r.path ≠ ltPath →
      ∃ stem c, (stem, c) ∈ env.corpus ∧ r.date = stem ∧
        scoreOf (modeOf q useRegex compile) c = some r.score) ∧
    (tagsPass tags ltC = true →
     ∀ s, scoreOf (modeOf q useRegex compile) ltC = some s → 0 < s →
     ∃ d, collectDaily (modeOf q useRegex compile) (cutoffOf env.now days) tags
            (sortFilesDesc env.corpus) = some d ∧
       res = (sortResults (d ++
         [⟨ltPath, ltDate, s * 3 / 2,
           (snipsOf (modeOf q useRegex compile) ltC).take 3⟩])).take maxR) := by
  obtain ⟨d, l, hd, hl, hres⟩ := searchCore_inv h
  refine ⟨?_, ?_, ?_⟩
  · intro r hr hpath
    rw [hres] at hr
    have hr3 : r ∈ d ++ l := mem_sortResults.1 ((List.take_sublist _ _).mem hr)
    rcases List.mem_append.1 hr3 with hrd | hrl
    · obtain ⟨stem, c, dt, _, _, _, _, hp, _, _, _, _⟩ := collectDaily_inv hd r hrd
      exact absurd (hp ▸ hpath) (dailyPath_ne_ltPath stem)
    · obtain ⟨c0, s0, hc0, _, hsc0, hpos0, hreq⟩ := collectLong_inv hl r hrl
      rw [hc0] at henv
      have hceq := Option.some.inj henv
      subst hceq
      have heven := scoreOf_even hsc0
      subst hreq
      exact ⟨s0, hsc0, hpos0, rfl, ltBoost_exact heven⟩
  · intro r hr hpath
    rw [hres] at hr
    have hr3 : r ∈ d ++ l := mem_sortResults.1 ((List.take_sublist _ _).mem hr)
    rcases List.mem_append.1 hr3 with hrd | hrl
    · obtain ⟨stem, c, dt, hmem, hpd, hcut2, htg, hp, hdate, hsc2, hpos2, hsn⟩ :=
        collectDaily_inv hd r hrd
      exact ⟨stem, c, mem_sortFilesDesc.1 hmem, hdate, hsc2⟩
    · obtain ⟨c0, s0, hc0, _, hsc0, hpos0, hreq⟩ := collectLong_inv hl r hrl
      exact absurd (by rw [hreq]) hpath
  · intro htag s hsc hpos
    have hl2 : collectLong (modeOf q useRegex compile) tags env.longTerm =
        some [⟨ltPath, ltDate, s * 3 / 2,
          (snipsOf (modeOf q useRegex compile) ltC).take 3⟩] := by
      rw [henv]
      simp [collectLong, htag, hsc, hpos]
    have hleq := Option.some.inj (hl.symm.trans hl2)
    subst hleq
    exact ⟨d, hd, hres⟩

/-- Witness for c5_longterm_boost: the spec scenario, daily score 5.0 (20)
versus long-term raw 4.0 (16) boosted to 6.0 (24): the long-term result
outranks the daily one. -/
theorem c5_witness :
    (search_memory_files ("abc".data) 5 none false none noCompile envBoost =
      some [⟨ltPath, ltDate, 24, [("abc abc abc abc".data)]⟩,
            ⟨dailyPath ("2024-01-01".data), "2024-01-01".data, 20,
              [("abc abc abc abc abc".data)]⟩]) ∧
    (∃ s, scoreOf (modeOf ("abc".data) false noCompile) ("abc abc abc abc".data) = some s ∧
      0 < s ∧ (⟨ltPath, ltDate, 24, [("abc abc abc abc".data)]⟩ : SearchResult).score =
        s * 3 / 2 ∧
      2 * (⟨ltPath, ltDate, 24, [("abc abc abc abc".data)]⟩ : SearchResult).score = 3 * s) :=
  ⟨by decide,
   (c5_longterm_boost ("abc".data) 5 none false none noCompile envBoost
      ("abc abc abc abc".data)
      [⟨ltPath, ltDate, 24, [("abc abc abc abc".data)]⟩,
       ⟨dailyPath ("2024-01-01".data), "2024-01-01".data, 20,
         [("abc abc abc abc abc".data)]⟩]
      rfl (by decide)).1
     ⟨ltPath, ltDate, 24, [("abc abc abc abc".data)]⟩ (List.mem_cons_self _ _) rfl⟩

/-- C9 amended: a file whose stem does not parse as a calendar date is
silently skipped and never returned by search or list (every daily search
result and every listed date key comes from a file whose stem parses); and
when a nonzero days window is given, daily results whose parsed date is
earlier than now minus days are excluded (a zero days value is falsy in the
code and means no window at all).  Dates compare as microsecond datetimes. -/
theorem c9_date_handling :
    (∀ (q : Str) (maxR : Nat) (days : Option ℤ) (useRegex : Bool) (tags : Option (List Str))
        (compile : Str → Option (Str → List (Nat × Nat))) (env : SearchEnv)
        (res : List SearchResult),
      search_memory_files q maxR days useRegex tags compile env = some res →
      ∀ r ∈ res, r.path = ltPath ∨
        ∃ stem c dt, (stem, c) ∈ env.corpus ∧ parseDate stem = some dt ∧
          r.path = dailyPath stem ∧ r.date = stem ∧
          (∀ dy : ℤ, days = some dy → dy ≠ 0 →
            ¬(dateUs dt < env.now - dy * usPerDay))) ∧
    (∀ (days : Option ℤ) (env : SearchEnv) (st : Str), st ∈ list_memories days env →
      st = ltDate ∨ ∃ c dt, (st, c) ∈ env.corpus ∧ parseDate st = some dt) := by
  constructor
  · intro q maxR days useRegex tags compile env res h r hr
    obtain ⟨d, l, hd, hl, hres⟩ := searchCore_inv h
    rw [hres] at hr
    have hr3 : r ∈ d ++ l := mem_sortResults.1 ((List.take_sublist _ _).mem hr)
    rcases List.mem_append.1 hr3 with hrd | hrl
    · obtain ⟨stem, c, dt, hmem, hpd, hcut2, htg, hp, hdate, hsc2, hpos2, hsn⟩ :=
        collectDaily_inv hd r hrd
      refine Or.inr ⟨stem, c, dt, mem_sortFilesDesc.1 hmem, hpd, hp, hdate, ?_⟩
      intro dy hdy hdy0
      rw [hdy] at hcut2
      simp only [cutoffOf, hdy0, if_neg, if_false] at hcut2
      simpa [cutFails] using hcut2
    · obtain ⟨c0, s0, hc0, _, hsc0, hpos0, hreq⟩ := collectLong_inv hl r hrl
      exact Or.inl (by rw [hreq])
  · intro days env st hst
    rcases List.mem_append.1 hst with hfm | hlt
    · obtain ⟨f, hf, heq⟩ := List.mem_filterMap.1 hfm
      cases hpd : parseDate f.1 with
      | none => simp [hpd] at heq
      | some dt =>
        cases hcf : cutFails (cutoffOf env.now days) dt with
        | true => simp [hpd, hcf] at heq
        | false =>
          simp only [hpd, hcf, Bool.false_eq_true, if_false] at heq
          have := Option.some.inj heq
          subst this
          exact Or.inr ⟨f.2, dt, mem_sortFilesDesc.1 (by simpa using hf), hpd⟩
    · cases henv : env.longTerm with
      | none => rw [henv] at hlt; cases hlt
      | some c =>
        rw [henv] at hlt
        rcases List.mem_cons.1 hlt with rfl | h2
        · exact Or.inl rfl
        · cases h2

/-- Witness for c9_date_handling at a corpus containing the malformed stem
notes beside a well-formed daily file. -/
theorem c9_witness :
    (wAbcRes.path = ltPath ∨
      ∃ stem c dt, (stem, c) ∈ envMalformed.corpus ∧ parseDate stem = some dt ∧
        wAbcRes.path = dailyPath stem ∧ wAbcRes.date = stem ∧
        (∀ dy : ℤ, (none : Option ℤ) = some dy → dy ≠ 0 →
          ¬(dateUs dt < envMalformed.now - dy * usPerDay))) ∧
    (("2024-01-01".data) = ltDate ∨
      ∃ c dt, (("2024-01-01".data), c) ∈ envMalformed.corpus ∧
        parseDate ("2024-01-01".data) = some dt) :=
  ⟨c9_date_handling.1 ("abc".data) 5 none false none noCompile envMalformed [wAbcRes]
     (by decide) wAbcRes (List.mem_cons_self _ _),
   c9_date_handling.2 none envMalformed ("2024-01-01".data) (by decide)⟩

/-- C10 amended: every token extract_keywords produces is regex-literal, and
keyword-mode search completes without raising whenever every effective
keyword is regex-literal - so for every query with at least one extracted
keyword.  (The claim fails as stated: when extraction is empty the fallback
keyword is the raw lowercased query, and a query such as a lone opening
parenthesis makes the interpolated heading pattern raise re.error, see the
counterexample.) -/
theorem c10_keyword_totality :
    (∀ (q : Str), ∀ k ∈ extract_keywords q, isLitKw k = true) ∧
    (∀ (q : Str) (maxR : Nat) (days : Option ℤ) (tags : Option (List Str))
       (compile : Str → Option (Str → List (Nat × Nat))) (env : SearchEnv),
      (∀ k ∈ effKeywords q, isLitKw k = true) →
      ∃ res, search_memory_files q maxR days false tags compile env = some res) := by
  constructor
  · exact extract_keywords_lit
  · intro q maxR days tags compile env hlit
    have hs : ∀ content, ∃ s, scoreOf (Mode.kw (effKeywords q)) content = some s :=
      fun content => scoreOf_kw_total (effKeywords q) hlit content
    obtain ⟨d, hd⟩ :=
      collectDaily_total _ (cutoffOf env.now days) tags hs (sortFilesDesc env.corpus)
    obtain ⟨l, hl⟩ := collectLong_total _ tags hs env.longTerm
    refine ⟨(sortResults (d ++ l)).take maxR, ?_⟩
    have hmode : modeOf q false compile = Mode.kw (effKeywords q) := rfl
    simp only [search_memory_files, hmode, searchCore, hd, hl]

/-- Witness for c10_keyword_totality on a concrete query and corpus. -/
theorem c10_witness :
    (isLitKw ("hello".data) = true) ∧
    (∃ res, search_memory_files ("hello".data) 5 none false none noCompile envHello = some res) :=
  ⟨c10_keyword_totality.1 ("hello world".data) ("hello".data) (by decide),
   c10_keyword_totality.2 ("hello".data) 5 none none noCompile envHello (by decide)⟩


theorem lineStartAux_append : ∀ (u v : Str) (i res : Nat),
    lineStartAux (u ++ v) i res = lineStartAux v (i + u.length) (lineStartAux u i res) := by
  intro u
  induction u with
  | nil => intro v i res; simp [lineStartAux]
  | cons c u2 ih =>
    intro v i res
    show lineStartAux (u2 ++ v) (i + 1) (if c = '\n' then i + 1 else res) =
      lineStartAux v (i + (c :: u2).length) (lineStartAux u2 (i + 1) (if c = '\n' then i + 1 else res))
    rw [ih]
    congr 1
    simp only [List.length_cons]
    omega

theorem lineStartAux_eq_spec (l : Str) :
    lineStartAux l 0 0 = l.length - (l.reverse.takeWhile (fun c => c ≠ '\n')).length := by
  induction l using List.reverseRecOn with
  | nil => rfl
  | append_singleton l c ih =>
    rw [lineStartAux_append]
    by_cases hc : c = '\n'
    · have h1 : lineStartAux [c] (0 + l.length) (lineStartAux l 0 0) = l.length + 1 := by
        simp [lineStartAux, hc]
      rw [h1]
      have h2 : ((l ++ [c]).reverse.takeWhile (fun x => x ≠ '\n')).length = 0 := by
        simp [hc]
      rw [h2]
      simp
    · have h1 : lineStartAux [c] (0 + l.length) (lineStartAux l 0 0) = lineStartAux l 0 0 := by
        simp [lineStartAux, hc]
      rw [h1, ih]
      have h2 : (l ++ [c]).reverse.takeWhile (fun x => x ≠ '\n') =
          c :: l.reverse.takeWhile (fun x => x ≠ '\n') := by
        simp [hc]
      rw [h2]
      have hle : (l.reverse.takeWhile (fun x => decide (x ≠ '\n'))).length ≤ l.length := by
        have h3 := (List.takeWhile_prefix (l := l.reverse)
          (fun x => decide (x ≠ '\n'))).length_le
        simpa using h3
      simp only [List.length_append, List.length_cons, List.length_singleton, List.length_nil]
      omega

theorem lineStartIdx_eq_spec (content : Str) (p : Nat) :
    lineStartIdx content p = lineStartSpec content p := by
  unfold lineStartIdx lineStartSpec
  exact lineStartAux_eq_spec (content.take p)

theorem regexBonus_eq_amended (content : Str) (m : Nat × Nat) :
    regexBonus content m = c2AmendedBonus content m := by
  unfold regexBonus c2AmendedBonus
  rw [lineStartIdx_eq_spec]

theorem foldl_add_map (f : Nat × Nat → ℤ) : ∀ (ms : List (Nat × Nat)) (init : ℤ),
    ms.foldl (fun a m => a + f m) init = init + (ms.map f).sum := by
  intro ms
  induction ms with
  | nil => intro init; simp
  | cons m t ih =>
    intro init
    rw [List.foldl_cons, ih, List.map_cons, List.sum_cons]
    ring

/-- C2 amended: regex-mode scoring is 2.0 per match plus, for every
individual match, a bonus computed from the slice that starts at the
beginning of the line containing the match's START offset and ends at the
match's end offset: +3.0 when that slice begins with a hash, else +1.5 when
the slice stripped of whitespace on both sides begins with a dash, star or
plus FOLLOWED BY A SPACE; no other bonuses; a document with zero matches
scores 0.0 and is excluded (every returned result has positive score).
Quarter points: 8, 12, 6. -/
theorem c2_regex_scoring :
    (∀ (content : Str) (ms : List (Nat × Nat)),
      score_content_regex content ms =
        if ms.isEmpty then 0
        else 8 * (ms.length : ℤ) + (ms.map (c2AmendedBonus content)).sum) ∧
    (∀ content : Str, score_content_regex content [] = 0) ∧
    (∀ (q : Str) (maxR : Nat) (days : Option ℤ) (useRegex : Bool) (tags : Option (List Str))
       (compile : Str → Option (Str → List (Nat × Nat))) (env : SearchEnv)
       (res : List SearchResult),
      search_memory_files q maxR days useRegex tags compile env = some res →
      ∀ r ∈ res, 0 < r.score) := by
  refine ⟨?_, fun content => rfl, fun _ _ _ _ _ _ _ _ h => search_pos h⟩
  intro content ms
  unfold score_content_regex
  by_cases hms : ms.isEmpty
  · simp [hms]
  · simp only [hms, Bool.false_eq_true, if_false]
    rw [foldl_add_map]
    congr 1
    exact congrArg List.sum (List.map_congr_left (fun m _ => regexBonus_eq_amended content m))

/-- Witness for c2_regex_scoring at concrete inputs. -/
theorem c2_witness :
    (score_content_regex ("# a\nb".data) [(2, 5)] =
      if ([(2, 5)] : List (Nat × Nat)).isEmpty then 0
      else 8 * (([(2, 5)] : List (Nat × Nat)).length : ℤ) +
        ([(2, 5)].map (c2AmendedBonus ("# a\nb".data))).sum) ∧
    0 < wAbcRes.score :=
  ⟨c2_regex_scoring.1 ("# a\nb".data) [(2, 5)],
   c2_regex_scoring.2.2 ("abc".data) 5 none false none noCompile envAbc [wAbcRes]
     (by decide) wAbcRes (List.mem_cons_self _ _)⟩


theorem uint32_le_iff_toNat {a b : UInt32} : a ≤ b ↔ a.toNat ≤ b.toNat := by
  simp [UInt32.le_def, BitVec.le_def, UInt32.toNat]

theorem char_isLower_iff {c : Char} : c.isLower = true ↔ 97 ≤ c.toNat ∧ c.toNat ≤ 122 := by
  have h97 : (97 : UInt32).toNat = 97 := rfl
  have h122 : (122 : UInt32).toNat = 122 := rfl
  simp [Char.isLower, uint32_le_iff_toNat, h97, h122, Char.toNat, UInt32.size]

theorem char_isUpper_iff {c : Char} : c.isUpper = true ↔ 65 ≤ c.toNat ∧ c.toNat ≤ 90 := by
  have h65 : (65 : UInt32).toNat = 65 := rfl
  have h90 : (90 : UInt32).toNat = 90 := rfl
  simp [Char.isUpper, uint32_le_iff_toNat, h65, h90, Char.toNat, UInt32.size]

theorem char_toNat_ofNat {n : Nat} (h : n < 55296) : (Char.ofNat n).toNat = n := by
  rw [Char.ofNat, dif_pos (Or.inl h)]
  rfl

theorem toLower_isLower_of_isAlpha {c : Char} (h : (Char.toLower c).isAlpha = true) :
    (Char.toLower c).isLower = true := by
  by_cases hc : 65 ≤ Char.toNat c ∧ Char.toNat c ≤ 90
  · have he : Char.toLower c = Char.ofNat (Char.toNat c + 32) := by
      simp only [Char.toLower]
      rw [if_pos ⟨hc.1, hc.2⟩]
    rw [he]
    rw [char_isLower_iff, char_toNat_ofNat (by omega)]
    omega
  · have he : Char.toLower c = c := by
      simp only [Char.toLower]
      rw [if_neg (fun hcon => hc ⟨hcon.1, hcon.2⟩)]
    rw [he] at h ⊢
    have halt : c.isUpper = true ∨ c.isLower = true := by
      simpa [Char.isAlpha, Bool.or_eq_true] using h
    rcases halt with hu | hl
    · exact absurd (char_isUpper_iff.1 hu) hc
    · exact hl

theorem wordRunsAcc_chars (P : Char → Prop) : ∀ (s acc : Str), (∀ c ∈ acc, P c) →
    (∀ c ∈ s, P c) → ∀ t ∈ wordRunsAcc acc s, ∀ c ∈ t, P c := by
  intro s
  induction s with
  | nil =>
    intro acc hacc hs t ht c hc
    cases he : acc.isEmpty with
    | true => simp [wordRunsAcc, he] at ht
    | false =>
      simp only [wordRunsAcc, he, Bool.false_eq_true, if_false, List.mem_singleton] at ht
      subst ht
      exact hacc c (List.mem_reverse.1 hc)
  | cons a s ih =>
    intro acc hacc hs t ht c hc
    cases hw : isWordCh a with
    | true =>
      simp only [wordRunsAcc, hw, if_true] at ht
      refine ih (a :: acc) ?_ (fun x hx => hs x (List.mem_cons_of_mem _ hx)) t ht c hc
      intro x hx
      rcases List.mem_cons.1 hx with rfl | hx2
      · exact hs x (List.mem_cons_self _ _)
      · exact hacc x hx2
    | false =>
      cases he : acc.isEmpty with
      | true =>
        simp only [wordRunsAcc, hw, he, Bool.false_eq_true, if_false, if_true] at ht
        exact ih [] (by simp) (fun x hx => hs x (List.mem_cons_of_mem _ hx)) t ht c hc
      | false =>
        simp only [wordRunsAcc, hw, he, Bool.false_eq_true, if_false, List.mem_cons] at ht
        rcases ht with rfl | ht2
        · exact hacc c (List.mem_reverse.1 hc)
        · exact ih [] (by simp) (fun x hx => hs x (List.mem_cons_of_mem _ hx)) t ht2 c hc

theorem extract_keywords_chars {q t : Str} (ht : t ∈ extract_keywords q) :
    ∀ c ∈ t, c ∈ lowerStr q := by
  simp only [extract_keywords, List.mem_filter] at ht
  exact wordRunsAcc_chars (fun c => c ∈ lowerStr q) (lowerStr q) [] (by simp)
    (fun c hc => hc) t ht.1.1

/-- C8 amended: every token the extractor returns is a lowercase alphabetic
run of length greater than 2 that is not a stop word; the returned list
preserves duplicates (it is the token list in order of occurrence, not a
deduplicated set); when the result is empty the caller uses the whole
lowercased query as the single keyword, so the effective keyword list is
never empty. -/
theorem c8_keyword_extraction :
    (∀ (q t : Str), t ∈ extract_keywords q →
      2 < t.length ∧ t.all Char.isAlpha = true ∧ t.all Char.isLower = true ∧ t ∉ stopWords) ∧
    (∀ q : Str, extract_keywords q = [] → effKeywords q = [lowerStr q]) ∧
    (∀ q : Str, effKeywords q ≠ []) ∧
    (∀ (q : Str) (compile : Str → Option (Str → List (Nat × Nat))),
      modeOf q false compile = Mode.kw (effKeywords q)) := by
  refine ⟨?_, ?_, effKeywords_ne_nil, fun q compile => rfl⟩
  · intro q t ht
    have hchars := extract_keywords_chars ht
    simp only [extract_keywords, List.mem_filter, Bool.and_eq_true, Bool.not_eq_true,
      decide_eq_true_eq] at ht
    obtain ⟨⟨hruns, halpha⟩, hstop, hlen⟩ := ht
    refine ⟨hlen, halpha, ?_, ?_⟩
    · rw [List.all_eq_true] at halpha ⊢
      intro c hc
      obtain ⟨c0, _, hc0⟩ := List.mem_map.1 (hchars c hc)
      have := halpha c hc
      rw [← hc0] at this ⊢
      exact toLower_isLower_of_isAlpha this
    · intro hmem
      rw [← List.elem_iff] at hmem
      simp [List.contains] at hstop
      exact absurd hmem (by simp [hstop])
  · intro q hq
    simp [effKeywords, hq]

/-- Witness for c8_keyword_extraction at concrete queries. -/
theorem c8_witness :
    (2 < ("running".data).length ∧ ("running".data).all Char.isAlpha = true ∧
      ("running".data).all Char.isLower = true ∧ ("running".data) ∉ stopWords) ∧
    effKeywords ("to".data) = [lowerStr ("to".data)] :=
  ⟨c8_keyword_extraction.1 ("running and cat".data) ("running".data) (by decide),
   c8_keyword_extraction.2.1 ("to".data) (by decide)⟩


theorem collectSnipsAux_enum (lines : List Str) (kws : List Str) :
    ∀ (rest : List Str) (i : Nat),
    collectSnipsAux lines kws i rest =
      ((List.enumFrom i rest).filter (fun p => kws.any (fun k => pyIn k (lowerStr p.2)))).map
        (fun p => snippetWindow lines p.1) := by
  intro rest
  induction rest with
  | nil => intro i; rfl
  | cons l rest ih =>
    intro i
    rw [List.enumFrom_cons]
    by_cases hp : kws.any (fun k => pyIn k (lowerStr l)) = true
    · rw [collectSnipsAux, if_pos hp, List.filter_cons_of_pos (by simpa using hp),
        List.map_cons, ih]
    · rw [collectSnipsAux, if_neg hp, List.filter_cons_of_neg (by simpa using hp), ih]

theorem dedupAux_eq_pdedup : ∀ (l seen : List Str),
    dedupAux seen l = pdedupFilter (l.filter (fun x => decide (x ∉ seen))) := by
  intro l
  induction l with
  | nil => intro seen; simp [dedupAux, pdedupFilter]
  | cons s r ih =>
    intro seen
    by_cases hs : s ∈ seen
    · have hc : seen.contains s = true := by
        simpa [List.contains, List.elem_iff] using hs
      rw [dedupAux, if_pos hc, List.filter_cons_of_neg (by simpa using hs), ih]
    · have hc : ¬seen.contains s = true := by
        simpa [List.contains, List.elem_iff] using hs
      rw [dedupAux, if_neg hc, List.filter_cons_of_pos (by simpa using hs), pdedupFilter, ih]
      have harg : r.filter (fun x => decide (x ∉ s :: seen)) =
          (r.filter (fun x => decide (x ∉ seen))).filter (fun x => decide (x ≠ s)) := by
        rw [List.filter_filter]
        apply List.filter_congr
        intro x _
        by_cases h1 : x ∈ seen <;> by_cases h2 : x = s <;> simp [h1, h2]
      rw [harg]

theorem snippetWindow_eq (lines : List Str) (i : Nat) :
    snippetWindow lines i = joinNl ((lines.take (i + 3)).drop (i - 2)) := by
  unfold snippetWindow
  congr 1
  rw [List.take_drop]
  by_cases hl : lines.length ≤ i + 3
  · rw [Nat.min_eq_left hl]
    by_cases h2 : i - 2 ≤ lines.length
    · have hA : (i - 2) + (lines.length - (i - 2)) = lines.length := by omega
      rw [hA, List.take_length, List.take_of_length_le hl]
    · have hA : (i - 2) + (lines.length - (i - 2)) = i - 2 := by omega
      rw [hA, List.take_of_length_le (by omega), List.take_of_length_le (by omega)]
  · have hmin : min lines.length (i + 3) = i + 3 := Nat.min_eq_right (by omega)
    rw [hmin]
    have harith : (i - 2) + (i + 3 - (i - 2)) = i + 3 := by omega
    rw [harith]

/-- C7 confirmed: keyword-mode snippet extraction equals, declaratively: scan
the lines in order, each line whose lowercased text contains some keyword
contributes exactly one snippet, namely the lines from index i-2 through i+2
clipped to the document and joined by newlines; the list is deduplicated by
exact equality keeping first occurrences (equal to the filter-out-later-copies
form); and every result search records carries at most the first 3 snippets. -/
theorem c7_snippet_extraction :
    (∀ (content : Str) (kws : List Str),
      extract_snippets content kws = pdedupFilter (c7SnipList content kws)) ∧
    (∀ (lines : List Str) (i : Nat),
      snippetWindow lines i = joinNl ((lines.take (i + 3)).drop (i - 2))) ∧
    (∀ (q : Str) (maxR : Nat) (days : Option ℤ) (useRegex : Bool) (tags : Option (List Str))
       (compile : Str → Option (Str → List (Nat × Nat))) (env : SearchEnv)
       (res : List SearchResult),
      search_memory_files q maxR days useRegex tags compile env = some res →
      ∀ r ∈ res, r.snippets.length ≤ 3) := by
  refine ⟨?_, snippetWindow_eq, ?_⟩
  · intro content kws
    rw [extract_snippets, dedupAux_eq_pdedup, collectSnipsAux_enum]
    have hfilter : ∀ L : List Str, L.filter (fun x => decide (x ∉ ([] : List Str))) = L := by
      intro L
      exact List.filter_eq_self.2 (fun a _ => by simp)
    rw [hfilter]
    simp [c7SnipList, List.enum]
  · intro q maxR days useRegex tags compile env res h r hr
    obtain ⟨d, l, hd, hl, hres⟩ := searchCore_inv h
    rw [hres] at hr
    have hr3 : r ∈ d ++ l := mem_sortResults.1 ((List.take_sublist _ _).mem hr)
    rcases List.mem_append.1 hr3 with hrd | hrl
    · obtain ⟨stem, c, dt, _, _, _, _, _, _, _, _, hsn⟩ := collectDaily_inv hd r hrd
      rw [hsn]
      exact List.length_take_le _ _
    · obtain ⟨c0, s0, _, _, _, _, hreq⟩ := collectLong_inv hl r hrl
      rw [hreq]
      exact List.length_take_le _ _


/-- Witness for c7_snippet_extraction at concrete inputs. -/
theorem c7_witness :
    extract_snippets ("a\nb\nabc\nd\ne\nf".data) [("abc".data)] =
      pdedupFilter (c7SnipList ("a\nb\nabc\nd\ne\nf".data) [("abc".data)]) ∧
    wAbcRes.snippets.length ≤ 3 :=
  ⟨c7_snippet_extraction.1 ("a\nb\nabc\nd\ne\nf".data) [("abc".data)],
   c7_snippet_extraction.2.2 ("abc".data) 5 none false none noCompile envAbc [wAbcRes]
     (by decide) wAbcRes (List.mem_cons_self _ _)⟩

theorem pyIn_infix_iff {n h : Str} : pyIn n h = true ↔ List.IsInfix n h := by
  induction h with
  | nil =>
    simp only [pyIn, List.isPrefixOf_iff_prefix]
    constructor
    · exact List.IsPrefix.isInfix
    · intro hi
      have hn : n = [] := List.eq_nil_of_infix_nil hi
      subst hn
      exact List.nil_prefix
  | cons c t ih =>
    simp only [pyIn, Bool.or_eq_true, List.isPrefixOf_iff_prefix, ih]
    rw [List.infix_cons_iff]

theorem wsThenColon_iff {s : Str} : wsThenColon s = true ↔
    ∃ w rest, s = w ++ ':' :: rest ∧ ∀ c ∈ w, isPySpace c = true := by
  induction s with
  | nil =>
    simp only [wsThenColon, Bool.false_eq_true, false_iff]
    rintro ⟨w, rest, hw, -⟩
    exact absurd hw (by simp)
  | cons c r ih =>
    simp only [wsThenColon, Bool.or_eq_true, Bool.and_eq_true, decide_eq_true_eq, ih]
    constructor
    · rintro (rfl | ⟨hws, w, rest, rfl, hw⟩)
      · exact ⟨[], r, rfl, by simp⟩
      · refine ⟨c :: w, rest, rfl, ?_⟩
        intro x hx
        rcases List.mem_cons.1 hx with rfl | hx2
        · exact hws
        · exact hw x hx2
    · rintro ⟨w, rest, hw, hws⟩
      cases w with
      | nil =>
        simp only [List.nil_append, List.cons.injEq] at hw
        exact Or.inl hw.1
      | cons c2 w2 =>
        simp only [List.cons_append, List.cons.injEq] at hw
        obtain ⟨rfl, hr⟩ := hw
        exact Or.inr ⟨hws c (List.mem_cons_self _ _),
          w2, rest, hr, fun x hx => hws x (List.mem_cons_of_mem _ hx)⟩

theorem tagColonTry_iff {tl : Str} : ∀ {s : Str}, tagColonTry tl s = true ↔
    ∃ w1 s2, s = w1 ++ s2 ∧ (∀ c ∈ w1, isPySpace c = true) ∧ List.IsPrefix tl s2 ∧
      wsThenColon (s2.drop tl.length) = true := by
  intro s
  induction s with
  | nil =>
    simp only [tagColonTry, Bool.false_eq_true, false_iff]
    rintro ⟨w1, s2, hw, -, hpre, hcol⟩
    have hw1 : w1 = [] := by
      cases w1 with
      | nil => rfl
      | cons a b => exact absurd hw (by simp)
    subst hw1
    simp only [List.nil_append] at hw
    subst hw
    have htl : tl = [] := List.prefix_nil.mp hpre
    subst htl
    simp [wsThenColon] at hcol
  | cons c r ih =>
    simp only [tagColonTry, Bool.or_eq_true, Bool.and_eq_true, decide_eq_true_eq,
      List.isPrefixOf_iff_prefix, ih]
    constructor
    · rintro (⟨hpre, hcol⟩ | ⟨hws, w1, s2, rfl, hw1, hpre, hcol⟩)
      · exact ⟨[], c :: r, rfl, by simp, hpre, hcol⟩
      · refine ⟨c :: w1, s2, rfl, ?_, hpre, hcol⟩
        intro x hx
        rcases List.mem_cons.1 hx with rfl | hx2
        · exact hws
        · exact hw1 x hx2
    · rintro ⟨w1, s2, hw, hw1, hpre, hcol⟩
      cases w1 with
      | nil =>
        simp only [List.nil_append] at hw
        subst hw
        exact Or.inl ⟨hpre, hcol⟩
      | cons c2 w2 =>
        simp only [List.cons_append, List.cons.injEq] at hw
        obtain ⟨rfl, hr⟩ := hw
        exact Or.inr ⟨hw1 c (List.mem_cons_self _ _),
          w2, s2, hr, fun x hx => hw1 x (List.mem_cons_of_mem _ hx), hpre, hcol⟩

theorem tagColonTry_iff_at {tl x : Str} : tagColonTry tl x = true ↔ TagColonAt tl x := by
  rw [tagColonTry_iff]
  constructor
  · rintro ⟨w1, s2, rfl, hw1, ⟨s3, rfl⟩, hcol⟩
    rw [List.drop_left] at hcol
    obtain ⟨w2, rest, rfl, hw2⟩ := wsThenColon_iff.1 hcol
    exact ⟨w1, w2, rest, by simp, hw1, hw2⟩
  · rintro ⟨w1, w2, rest, rfl, hw1, hw2⟩
    refine ⟨w1, tl ++ w2 ++ ':' :: rest, by simp, hw1, ⟨w2 ++ ':' :: rest, by simp⟩, ?_⟩
    have hd : (tl ++ w2 ++ ':' :: rest).drop tl.length = w2 ++ ':' :: rest := by
      rw [List.append_assoc, List.drop_left]
    rw [hd]
    exact wsThenColon_iff.2 ⟨w2, rest, rfl, hw2⟩

theorem mlAux_iff {p : Str → Bool} : ∀ {s : Str}, mlAux p s = true ↔
    ∃ a b, s = a ++ '\n' :: b ∧ p b = true := by
  intro s
  induction s with
  | nil =>
    simp only [mlAux, Bool.false_eq_true, false_iff]
    rintro ⟨a, b, hab, -⟩
    exact absurd hab (by simp)
  | cons c r ih =>
    simp only [mlAux, Bool.or_eq_true, Bool.and_eq_true, decide_eq_true_eq, ih]
    constructor
    · rintro (⟨rfl, hp⟩ | ⟨a, b, rfl, hp⟩)
      · exact ⟨[], r, rfl, hp⟩
      · exact ⟨c :: a, b, rfl, hp⟩
    · rintro ⟨a, b, hab, hp⟩
      cases a with
      | nil =>
        simp only [List.nil_append, List.cons.injEq] at hab
        obtain ⟨rfl, rfl⟩ := hab
        exact Or.inl ⟨rfl, hp⟩
      | cons c2 a2 =>
        simp only [List.cons_append, List.cons.injEq] at hab
        obtain ⟨rfl, hr⟩ := hab
        exact Or.inr ⟨a2, b, hr, hp⟩

theorem mlSearch_colon_iff {tl cl : Str} :
    mlSearch (tagColonTry tl) cl = true ↔ ColonLineStart tl cl := by
  rw [mlSearch, Bool.or_eq_true, mlAux_iff]
  constructor
  · rintro (hp | ⟨a, b, rfl, hp⟩)
    · obtain ⟨w1, w2, rest, rfl, hw1, hw2⟩ := tagColonTry_iff_at.1 hp
      exact ⟨[], w1, w2, rest, by simp, Or.inl rfl, hw1, hw2⟩
    · obtain ⟨w1, w2, rest, rfl, hw1, hw2⟩ := tagColonTry_iff_at.1 hp
      refine ⟨a ++ ['\n'], w1, w2, rest, ?_, Or.inr ⟨a, rfl⟩, hw1, hw2⟩
      simp
  · rintro ⟨pre, w1, w2, rest, rfl, hpre, hw1, hw2⟩
    rcases hpre with rfl | ⟨pre2, rfl⟩
    · exact Or.inl (tagColonTry_iff_at.2 ⟨w1, w2, rest, by simp, hw1, hw2⟩)
    · refine Or.inr ⟨pre2, w1 ++ tl ++ w2 ++ ':' :: rest, ?_, ?_⟩
      · simp
      · exact tagColonTry_iff_at.2 ⟨w1, w2, rest, rfl, hw1, hw2⟩

/-- C6 amended: the tag matcher returns true exactly when some requested tag
occurs, case-insensitively, as the substring hash-tag, as the substring
bracket-tag-bracket (which the double-bracket form implies), or as the tag at
the start of a line preceded only by whitespace and followed by OPTIONAL
WHITESPACE (possibly spanning line breaks) and then a colon - the pure
substring forms need not sit at a line start, and the colon form tolerates
whitespace before the colon, which the four literal forms of the claim do
not.  No other matching occurs, so content myproject still does not match
tag project. -/
theorem c6_tag_matching (content : Str) (tags : List Str) :
    has_tags content tags = true ↔
      ∃ t ∈ tags,
        List.IsInfix ('#' :: lowerStr t) (lowerStr content) ∨
        List.IsInfix ('[' :: (lowerStr t ++ [']'])) (lowerStr content) ∨
        List.IsInfix ('[' :: '[' :: (lowerStr t ++ [']', ']'])) (lowerStr content) ∨
        ColonLineStart (lowerStr t) (lowerStr content) := by
  rw [has_tags, List.any_eq_true]
  constructor
  · rintro ⟨t, ht, hforms⟩
    refine ⟨t, ht, ?_⟩
    simp only [Bool.or_eq_true] at hforms
    rcases hforms with ((h1 | h2) | h3) | h4
    · exact Or.inl (pyIn_infix_iff.1 h1)
    · exact Or.inr (Or.inl (pyIn_infix_iff.1 h2))
    · exact Or.inr (Or.inr (Or.inl (pyIn_infix_iff.1 h3)))
    · exact Or.inr (Or.inr (Or.inr (mlSearch_colon_iff.1 h4)))
  · rintro ⟨t, ht, hforms⟩
    refine ⟨t, ht, ?_⟩
    simp only [Bool.or_eq_true]
    rcases hforms with h1 | h2 | h3 | h4
    · exact Or.inl (Or.inl (Or.inl (pyIn_infix_iff.2 h1)))
    · exact Or.inl (Or.inl (Or.inr (pyIn_infix_iff.2 h2)))
    · exact Or.inl (Or.inr (pyIn_infix_iff.2 h3))
    · exact Or.inr (mlSearch_colon_iff.2 h4)

/-- Witness for c6_tag_matching: applying the characterization to concrete
content exhibits the matching form. -/
theorem c6_witness :
    ∃ t ∈ [("project".data)],
      List.IsInfix ('#' :: lowerStr t) (lowerStr ("x #project y".data)) ∨
      List.IsInfix ('[' :: (lowerStr t ++ [']'])) (lowerStr ("x #project y".data)) ∨
      List.IsInfix ('[' :: '[' :: (lowerStr t ++ [']', ']'])) (lowerStr ("x #project y".data)) ∨
      ColonLineStart (lowerStr t) (lowerStr ("x #project y".data)) :=
  (c6_tag_matching ("x #project y".data) [("project".data)]).mp (by decide)


theorem char_isDigit_iff {c : Char} : c.isDigit = true ↔ 48 ≤ c.toNat ∧ c.toNat ≤ 57 := by
  have h48 : (48 : UInt32).toNat = 48 := rfl
  have h57 : (57 : UInt32).toNat = 57 := rfl
  simp [Char.isDigit, uint32_le_iff_toNat, h48, h57, Char.toNat, UInt32.size]

theorem char_toNat_inj {a b : Char} (h : a.toNat = b.toNat) : a = b := by
  have h2 : Char.ofNat a.toNat = Char.ofNat b.toNat := by rw [h]
  rwa [Char.ofNat_toNat, Char.ofNat_toNat] at h2

theorem digit_ne_dash {c : Char} (h : c.isDigit = true) : ¬c = '-' := by
  intro hc
  subst hc
  exact absurd h (by decide)

theorem digitsVal_foldl (s : Str) : ∀ acc : Nat,
    s.foldl (fun a c => 10 * a + (c.toNat - 48)) acc = acc * 10 ^ s.length + digitsValPoly s := by
  induction s with
  | nil => intro acc; simp [digitsValPoly]
  | cons c r ih =>
    intro acc
    rw [List.foldl_cons, ih]
    simp only [digitsValPoly, List.length_cons]
    ring

theorem digitsVal_eq_poly (s : Str) : digitsVal s = digitsValPoly s := by
  rw [digitsVal, digitsVal_foldl]
  simp

theorem digitsValPoly_lt_pow {s : Str} (h : ∀ c ∈ s, c.isDigit = true) :
    digitsValPoly s < 10 ^ s.length := by
  induction s with
  | nil => simp [digitsValPoly]
  | cons c r ih =>
    have hc := char_isDigit_iff.1 (h c (List.mem_cons_self _ _))
    have hr := ih (fun x hx => h x (List.mem_cons_of_mem _ hx))
    simp only [digitsValPoly, List.length_cons]
    have hv : c.toNat - 48 ≤ 9 := by omega
    calc (c.toNat - 48) * 10 ^ r.length + digitsValPoly r
        < (c.toNat - 48) * 10 ^ r.length + 10 ^ r.length := by omega
      _ = (c.toNat - 48 + 1) * 10 ^ r.length := by ring
      _ ≤ 10 * 10 ^ r.length := Nat.mul_le_mul_right _ (by omega)
      _ = 10 ^ (r.length + 1) := by ring

theorem strLt_cons {x y : Char} {u v : Str} :
    strLt (x :: u) (y :: v) = true ↔ x.toNat < y.toNat ∨ (x = y ∧ strLt u v = true) := by
  simp only [strLt, Bool.or_eq_true, Bool.and_eq_true, decide_eq_true_eq]
  constructor
  · rintro (h | ⟨he, hs⟩)
    · exact Or.inl h
    · exact Or.inr ⟨char_toNat_inj he, hs⟩
  · rintro (h | ⟨rfl, hs⟩)
    · exact Or.inl h
    · exact Or.inr ⟨rfl, hs⟩

theorem strLt_irrefl (l : Str) : strLt l l = false := by
  induction l with
  | nil => rfl
  | cons c r ih =>
    simp only [strLt, ih, Bool.and_false, Bool.or_eq_false_iff, decide_eq_false_iff_not]
    exact ⟨Nat.lt_irrefl _, trivial⟩

theorem strLt_trans : ∀ {a b c : Str}, strLt a b = true → strLt b c = true → strLt a c = true := by
  intro a
  induction a with
  | nil =>
    intro b c hab hbc
    cases b with
    | nil => exact hbc
    | cons y bt =>
      cases c with
      | nil => cases hbc
      | cons z ct => rfl
  | cons x at2 ih =>
    intro b c hab hbc
    cases b with
    | nil => cases hab
    | cons y bt =>
      cases c with
      | nil => cases hbc
      | cons z ct =>
        rcases strLt_cons.1 hab with h1 | ⟨rfl, h1⟩ <;>
          rcases strLt_cons.1 hbc with h2 | ⟨he2, h2⟩
        · exact strLt_cons.2 (Or.inl (by omega))
        · subst he2
          exact strLt_cons.2 (Or.inl h1)
        · exact strLt_cons.2 (Or.inl h2)
        · subst he2
          exact strLt_cons.2 (Or.inr ⟨rfl, ih h1 h2⟩)

theorem strLt_trichotomy : ∀ {a b : Str}, a.length = b.length →
    strLt a b = true ∨ a = b ∨ strLt b a = true := by
  intro a
  induction a with
  | nil =>
    intro b hl
    cases b with
    | nil => exact Or.inr (Or.inl rfl)
    | cons y bt => simp at hl
  | cons x at2 ih =>
    intro b hl
    cases b with
    | nil => simp at hl
    | cons y bt =>
      simp only [List.length_cons, Nat.add_right_cancel_iff] at hl
      rcases Nat.lt_trichotomy x.toNat y.toNat with h | h | h
      · exact Or.inl (strLt_cons.2 (Or.inl h))
      · have hxy : x = y := char_toNat_inj h
        subst hxy
        rcases ih hl with h2 | h2 | h2
        · exact Or.inl (strLt_cons.2 (Or.inr ⟨rfl, h2⟩))
        · exact Or.inr (Or.inl (by rw [h2]))
        · exact Or.inr (Or.inr (strLt_cons.2 (Or.inr ⟨rfl, h2⟩)))
      · exact Or.inr (Or.inr (strLt_cons.2 (Or.inl h)))

theorem digit_strLt_iff : ∀ {a b : Str}, a.length = b.length →
    (∀ c ∈ a, c.isDigit = true) → (∀ c ∈ b, c.isDigit = true) →
    (strLt a b = true ↔ digitsValPoly a < digitsValPoly b) := by
  intro a
  induction a with
  | nil =>
    intro b hl _ _
    cases b with
    | nil => simp [strLt, digitsValPoly]
    | cons y bt => simp at hl
  | cons x at2 ih =>
    intro b hl hda hdb
    cases b with
    | nil => simp at hl
    | cons y bt =>
      simp only [List.length_cons, Nat.add_right_cancel_iff] at hl
      have hdx := char_isDigit_iff.1 (hda x (List.mem_cons_self _ _))
      have hdy := char_isDigit_iff.1 (hdb y (List.mem_cons_self _ _))
      have hba : digitsValPoly at2 < 10 ^ at2.length :=
        digitsValPoly_lt_pow (fun c hc => hda c (List.mem_cons_of_mem _ hc))
      have hbb : digitsValPoly bt < 10 ^ bt.length :=
        digitsValPoly_lt_pow (fun c hc => hdb c (List.mem_cons_of_mem _ hc))
      have hstep : ∀ (p q : Char) (u v : Str), u.length = v.length →
          p.toNat < q.toNat → 48 ≤ p.toNat → 48 ≤ q.toNat →
          digitsValPoly u < 10 ^ u.length →
          digitsValPoly (p :: u) < digitsValPoly (q :: v) := by
        intro p q u v huv hpq hp hq hu
        simp only [digitsValPoly]
        calc (p.toNat - 48) * 10 ^ u.length + digitsValPoly u
            < (p.toNat - 48) * 10 ^ u.length + 10 ^ u.length := by omega
          _ = (p.toNat - 48 + 1) * 10 ^ u.length := by ring
          _ ≤ (q.toNat - 48) * 10 ^ u.length := Nat.mul_le_mul_right _ (by omega)
          _ = (q.toNat - 48) * 10 ^ v.length := by rw [huv]
          _ ≤ digitsValPoly (q :: v) := by simp [digitsValPoly]
      rw [strLt_cons]
      constructor
      · rintro (h | ⟨rfl, hs⟩)
        · exact hstep x y at2 bt hl h hdx.1 hdy.1 hba
        · simp only [digitsValPoly, hl]
          have := (ih hl (fun c hc => hda c (List.mem_cons_of_mem _ hc))
            (fun c hc => hdb c (List.mem_cons_of_mem _ hc))).1 hs
          omega
      · intro hval
        rcases Nat.lt_trichotomy x.toNat y.toNat with h | h | h
        · exact Or.inl h
        · have hxy : x = y := char_toNat_inj h
          subst hxy
          refine Or.inr ⟨rfl, ?_⟩
          simp only [digitsValPoly, hl] at hval
          exact (ih hl (fun c hc => hda c (List.mem_cons_of_mem _ hc))
            (fun c hc => hdb c (List.mem_cons_of_mem _ hc))).2 (by omega)
        · exfalso
          have := hstep y x bt at2 hl.symm h hdy.1 hdx.1 hbb
          omega

theorem digit_eq_iff : ∀ {a b : Str}, a.length = b.length →
    (∀ c ∈ a, c.isDigit = true) → (∀ c ∈ b, c.isDigit = true) →
    (a = b ↔ digitsValPoly a = digitsValPoly b) := by
  intro a b hl hda hdb
  constructor
  · rintro rfl; rfl
  · intro hv
    rcases strLt_trichotomy hl with h | h | h
    · have := (digit_strLt_iff hl hda hdb).1 h
      omega
    · exact h
    · have := (digit_strLt_iff hl.symm hdb hda).1 h
      omega

theorem strLt_append_iff : ∀ {a b : Str} (u v : Str), a.length = b.length →
    (strLt (a ++ u) (b ++ v) = true ↔
      (strLt a b = true ∨ (a = b ∧ strLt u v = true))) := by
  intro a
  induction a with
  | nil =>
    intro b u v hl
    cases b with
    | nil => simp [strLt]
    | cons y bt => simp at hl
  | cons x at2 ih =>
    intro b u v hl
    cases b with
    | nil => simp at hl
    | cons y bt =>
      simp only [List.length_cons, Nat.add_right_cancel_iff] at hl
      simp only [List.cons_append, strLt_cons, ih u v hl, List.cons.injEq]
      constructor
      · rintro (h | ⟨rfl, (h | ⟨rfl, h⟩)⟩)
        · exact Or.inl (Or.inl h)
        · exact Or.inl (Or.inr ⟨rfl, h⟩)
        · exact Or.inr ⟨⟨rfl, rfl⟩, h⟩
      · rintro ((h | ⟨rfl, h⟩) | ⟨⟨rfl, rfl⟩, h⟩)
        · exact Or.inl h
        · exact Or.inr ⟨rfl, Or.inl h⟩
        · exact Or.inr ⟨rfl, Or.inr ⟨rfl, h⟩⟩


theorem strLt_cons_same {c : Char} {u v : Str} : strLt (c :: u) (c :: v) = strLt u v := by
  simp [strLt]

theorem canonicalStem_shape {s : Str} (h : canonicalStem s = true) :
    ∃ y1 y2 y3 y4 m1 m2 d1 d2 : Char,
      s = [y1, y2, y3, y4, '-', m1, m2, '-', d1, d2] ∧
      (y1.isDigit = true ∧ y2.isDigit = true ∧ y3.isDigit = true ∧ y4.isDigit = true) ∧
      (m1.isDigit = true ∧ m2.isDigit = true) ∧ (d1.isDigit = true ∧ d2.isDigit = true) := by
  rcases s with _ | ⟨y1, _ | ⟨y2, _ | ⟨y3, _ | ⟨y4, _ | ⟨c5, _ | ⟨m1, _ | ⟨m2, _ |
    ⟨c8, _ | ⟨d1, _ | ⟨d2, rest⟩⟩⟩⟩⟩⟩⟩⟩⟩⟩ <;>
    simp only [canonicalStem, Bool.and_eq_true, decide_eq_true_eq, List.isEmpty_iff,
      Bool.false_eq_true] at h
  obtain ⟨⟨⟨⟨⟨⟨⟨⟨⟨⟨hy1, hy2⟩, hy3⟩, hy4⟩, hc5⟩, hm1⟩, hm2⟩, hc8⟩, hd1⟩, hd2⟩, hrest⟩ := h
  subst hc5
  subst hc8
  subst hrest
  exact ⟨y1, y2, y3, y4, m1, m2, d1, d2, rfl, ⟨hy1, hy2, hy3, hy4⟩, ⟨hm1, hm2⟩, ⟨hd1, hd2⟩⟩

theorem parseDate_canonical {y1 y2 y3 y4 m1 m2 d1 d2 : Char} {t : Nat × Nat × Nat}
    (hy1 : y1.isDigit = true) (hy2 : y2.isDigit = true) (hy3 : y3.isDigit = true)
    (hy4 : y4.isDigit = true) (hm1 : m1.isDigit = true) (hm2 : m2.isDigit = true)
    (hd1 : d1.isDigit = true) (hd2 : d2.isDigit = true)
    (hp : parseDate [y1, y2, y3, y4, '-', m1, m2, '-', d1, d2] = some t) :
    t = (digitsVal [y1, y2, y3, y4], digitsVal [m1, m2], digitsVal [d1, d2]) := by
  have hsplit : splitCh '-' [y1, y2, y3, y4, '-', m1, m2, '-', d1, d2] =
      [[y1, y2, y3, y4], [m1, m2], [d1, d2]] := by
    simp [splitCh, digit_ne_dash hy1, digit_ne_dash hy2, digit_ne_dash hy3, digit_ne_dash hy4,
      digit_ne_dash hm1, digit_ne_dash hm2, digit_ne_dash hd1, digit_ne_dash hd2]
  rw [parseDate, hsplit] at hp
  simp only [List.length_cons, List.length_nil, List.all_cons, List.all_nil, hy1, hy2, hy3, hy4,
    hm1, hm2, hd1, hd2, Bool.and_true, Bool.true_and, decide_True, Bool.and_self] at hp
  split at hp
  · split at hp
    · exact (Option.some.inj hp).symm
    · cases hp
  · cases hp

theorem canonical_strLt_iff_dateLt {s1 s2 : Str} {t1 t2 : Nat × Nat × Nat}
    (hc1 : canonicalStem s1 = true) (hc2 : canonicalStem s2 = true)
    (hp1 : parseDate s1 = some t1) (hp2 : parseDate s2 = some t2) :
    strLt s1 s2 = true ↔ dateLt t1 t2 := by
  obtain ⟨y1, y2, y3, y4, m1, m2, d1, d2, rfl, ⟨hy1, hy2, hy3, hy4⟩, ⟨hm1, hm2⟩, ⟨hd1, hd2⟩⟩ :=
    canonicalStem_shape hc1
  obtain ⟨z1, z2, z3, z4, n1, n2, e1, e2, rfl, ⟨hz1, hz2, hz3, hz4⟩, ⟨hn1, hn2⟩, ⟨he1, he2⟩⟩ :=
    canonicalStem_shape hc2
  have ht1 := parseDate_canonical hy1 hy2 hy3 hy4 hm1 hm2 hd1 hd2 hp1
  have ht2 := parseDate_canonical hz1 hz2 hz3 hz4 hn1 hn2 he1 he2 hp2
  subst ht1
  subst ht2
  have hYa : ∀ c ∈ [y1, y2, y3, y4], c.isDigit = true := by
    intro c hc
    simp only [List.mem_cons, List.not_mem_nil, or_false] at hc
    rcases hc with rfl | rfl | rfl | rfl <;> assumption
  have hYb : ∀ c ∈ [z1, z2, z3, z4], c.isDigit = true := by
    intro c hc
    simp only [List.mem_cons, List.not_mem_nil, or_false] at hc
    rcases hc with rfl | rfl | rfl | rfl <;> assumption
  have hMa : ∀ c ∈ [m1, m2], c.isDigit = true := by
    intro c hc
    simp only [List.mem_cons, List.not_mem_nil, or_false] at hc
    rcases hc with rfl | rfl <;> assumption
  have hMb : ∀ c ∈ [n1, n2], c.isDigit = true := by
    intro c hc
    simp only [List.mem_cons, List.not_mem_nil, or_false] at hc
    rcases hc with rfl | rfl <;> assumption
  have hDa : ∀ c ∈ [d1, d2], c.isDigit = true := by
    intro c hc
    simp only [List.mem_cons, List.not_mem_nil, or_false] at hc
    rcases hc with rfl | rfl <;> assumption
  have hDb : ∀ c ∈ [e1, e2], c.isDigit = true := by
    intro c hc
    simp only [List.mem_cons, List.not_mem_nil, or_false] at hc
    rcases hc with rfl | rfl <;> assumption
  have hdec1 : [y1, y2, y3, y4, '-', m1, m2, '-', d1, d2] =
      [y1, y2, y3, y4] ++ '-' :: ([m1, m2] ++ '-' :: [d1, d2]) := rfl
  have hdec2 : [z1, z2, z3, z4, '-', n1, n2, '-', e1, e2] =
      [z1, z2, z3, z4] ++ '-' :: ([n1, n2] ++ '-' :: [e1, e2]) := rfl
  rw [hdec1, hdec2,
    strLt_append_iff ('-' :: ([m1, m2] ++ '-' :: [d1, d2]))
      ('-' :: ([n1, n2] ++ '-' :: [e1, e2])) (by simp),
    strLt_cons_same,
    strLt_append_iff ('-' :: [d1, d2]) ('-' :: [e1, e2]) (by simp),
    strLt_cons_same,
    digit_strLt_iff (by simp) hYa hYb,
    digit_strLt_iff (by simp) hMa hMb,
    digit_strLt_iff (by simp) hDa hDb,
    digit_eq_iff (by simp) hYa hYb,
    digit_eq_iff (by simp) hMa hMb]
  simp only [dateLt, digitsVal_eq_poly]

theorem pairwise_insertFileDesc {x : Str × Str} : ∀ {acc : List (Str × Str)},
    List.Pairwise (fun f g => strLt (fileKey f) (fileKey g) = false) acc →
    List.Pairwise (fun f g => strLt (fileKey f) (fileKey g) = false) (insertFileDesc x acc) := by
  intro acc h
  induction acc with
  | nil => simp [insertFileDesc]
  | cons y t ih =>
    rcases List.pairwise_cons.1 h with ⟨hy, ht⟩
    by_cases hlt : strLt (fileKey y) (fileKey x) = true
    · rw [insertFileDesc, if_pos hlt]
      refine List.pairwise_cons.2 ⟨?_, h⟩
      intro z hz
      rcases List.mem_cons.1 hz with rfl | hz2
      · cases hxz : strLt (fileKey x) (fileKey z) with
        | false => rfl
        | true =>
          have h2 := strLt_trans hlt hxz
          rw [strLt_irrefl] at h2
          cases h2
      · cases hxz : strLt (fileKey x) (fileKey z) with
        | false => rfl
        | true =>
          have h2 := strLt_trans hlt hxz
          exact absurd h2 (by simp [hy z hz2])
    · rw [insertFileDesc, if_neg hlt]
      refine List.pairwise_cons.2 ⟨?_, ih ht⟩
      intro z hz
      rcases mem_insertFileDesc.1 hz with rfl | hz2
      · simpa using hlt
      · exact hy z hz2

theorem sortFilesFold_sorted (l : List (Str × Str)) : ∀ (acc : List (Str × Str)),
    List.Pairwise (fun f g => strLt (fileKey f) (fileKey g) = false) acc →
    List.Pairwise (fun f g => strLt (fileKey f) (fileKey g) = false)
      (l.foldl (fun a x => insertFileDesc x a) acc) := by
  induction l with
  | nil => intro acc h; exact h
  | cons x t ih => intro acc h; exact ih _ (pairwise_insertFileDesc h)

theorem sortFilesDesc_sorted (l : List (Str × Str)) :
    List.Pairwise (fun f g => strLt (fileKey f) (fileKey g) = false) (sortFilesDesc l) :=
  sortFilesFold_sorted l [] List.Pairwise.nil

/-- C4 confirmed: whenever search returns, the returned list is the first
maxResults entries of the stable descending sort by score of the accumulated
results; the output is sorted by score descending; ties keep discovery order
(the filter of any fixed score is unchanged by the sort); the daily results
appear in the discovery order of the walker (their date keys form a sublist
of the file names in descending file-name order); for canonically named
zero-padded date stems that order is reverse chronological (any two daily
results appearing in order have parsed dates in strictly decreasing order or
equal stems); and the long-term result, when present, is the single last
accumulated entry. -/
theorem c4_ranking (q : Str) (maxR : Nat) (days : Option ℤ) (useRegex : Bool)
    (tags : Option (List Str)) (compile : Str → Option (Str → List (Nat × Nat)))
    (env : SearchEnv) (res : List SearchResult)
    (h : search_memory_files q maxR days useRegex tags compile env = some res) :
    ∃ d l,
      collectDaily (modeOf q useRegex compile) (cutoffOf env.now days) tags
          (sortFilesDesc env.corpus) = some d ∧
      collectLong (modeOf q useRegex compile) tags env.longTerm = some l ∧
      res = (sortResults (d ++ l)).take maxR ∧
      List.Pairwise (fun a b => b.score ≤ a.score) res ∧
      (∀ s : ℤ, (sortResults (d ++ l)).filter (fun r => decide (r.score = s)) =
        (d ++ l).filter (fun r => decide (r.score = s))) ∧
      List.Sublist (d.map (fun r => r.date)) ((sortFilesDesc env.corpus).map (fun f => f.1)) ∧
      (∀ a b : SearchResult, List.Sublist [a, b] d →
        canonicalStem a.date = true → canonicalStem b.date = true →
        ∀ ta tb, parseDate a.date = some ta → parseDate b.date = some tb →
          dateLt tb ta ∨ a.date = b.date) ∧
      l.length ≤ 1 ∧ (∀ r ∈ l, r.date = ltDate ∧ r.path = ltPath) := by
  obtain ⟨d, l, hd, hl, hres⟩ := searchCore_inv h
  refine ⟨d, l, hd, hl, hres, ?_, fun s => sortResults_stable s (d ++ l),
    collectDaily_dates_sublist hd, ?_, collectLong_len hl, ?_⟩
  · subst hres
    exact List.Pairwise.sublist (List.take_sublist _ _) (sortResults_sorted _)
  · intro a b hab hca hcb ta tb hpa hpb
    have hsorted : List.Pairwise
        (fun s1 s2 : Str => strLt (s1 ++ (".md".data)) (s2 ++ (".md".data)) = false)
        ((sortFilesDesc env.corpus).map (fun f => f.1)) :=
      List.Pairwise.map _ (fun f g hfg => hfg) (sortFilesDesc_sorted env.corpus)
    have hsub2 : List.Sublist [a.date, b.date]
        ((sortFilesDesc env.corpus).map (fun f => f.1)) :=
      (List.Sublist.map (fun r : SearchResult => r.date) hab).trans
        (collectDaily_dates_sublist hd)
    have hpair := List.Pairwise.sublist hsub2 hsorted
    have hba : strLt (a.date ++ (".md".data)) (b.date ++ (".md".data)) = false :=
      (List.pairwise_cons.1 hpair).1 b.date (by simp)
    have hla : a.date.length = 10 := by
      obtain ⟨y1, y2, y3, y4, m1, m2, d1, d2, he, -⟩ := canonicalStem_shape hca
      rw [he]
      rfl
    have hlb : b.date.length = 10 := by
      obtain ⟨y1, y2, y3, y4, m1, m2, d1, d2, he, -⟩ := canonicalStem_shape hcb
      rw [he]
      rfl
    have hfalse : strLt a.date b.date = false := by
      cases hab2 : strLt a.date b.date with
      | false => rfl
      | true =>
        have h3 := (strLt_append_iff (".md".data) (".md".data)
          (by rw [hla, hlb])).2 (Or.inl hab2)
        rw [hba] at h3
        cases h3
    rcases strLt_trichotomy (show b.date.length = a.date.length by rw [hla, hlb]) with
      h | h | h
    · exact Or.inl ((canonical_strLt_iff_dateLt hcb hca hpb hpa).1 h)
    · exact Or.inr h.symm
    · rw [hfalse] at h
      cases h
  · intro r hr
    obtain ⟨c0, s0, _, _, _, _, hreq⟩ := collectLong_inv hl r hr
    subst hreq
    exact ⟨rfl, rfl⟩

/-- Witness for c4_ranking: two documents with equal scores discovered in
order tieA then tieB come out in that order. -/
theorem c4_witness :
    (search_memory_files ("abc".data) 5 none false none noCompile envTie = some [tieA, tieB] ∧
     tieA.score = tieB.score) ∧
    (∃ d l,
      collectDaily (modeOf ("abc".data) false noCompile) (cutoffOf envTie.now none) none
          (sortFilesDesc envTie.corpus) = some d ∧
      collectLong (modeOf ("abc".data) false noCompile) none envTie.longTerm = some l ∧
      [tieA, tieB] = (sortResults (d ++ l)).take 5 ∧
      List.Pairwise (fun a b => b.score ≤ a.score) [tieA, tieB] ∧
      (∀ s : ℤ, (sortResults (d ++ l)).filter (fun r => decide (r.score = s)) =
        (d ++ l).filter (fun r => decide (r.score = s))) ∧
      List.Sublist (d.map (fun r => r.date)) ((sortFilesDesc envTie.corpus).map (fun f => f.1)) ∧
      (∀ a b : SearchResult, List.Sublist [a, b] d →
        canonicalStem a.date = true → canonicalStem b.date = true →
        ∀ ta tb, parseDate a.date = some ta → parseDate b.date = some tb →
          dateLt tb ta ∨ a.date = b.date) ∧
      l.length ≤ 1 ∧ (∀ r ∈ l, r.date = ltDate ∧ r.path = ltPath)) :=
  ⟨⟨by decide, by decide⟩,
   c4_ranking ("abc".data) 5 none false none noCompile envTie [tieA, tieB] (by decide)⟩

end MemorySearch
